import Mathlib

/-!
Verification of the SwaggerMcp tool pipeline: a shallow embedding of the
TypeScript sources (SwaggerMcpServer.ts, generators/ToolGenerator.ts,
generators/SchemaConverter.ts, proxy/ApiProxy.ts, proxy/AuthManager.ts,
parsers/*) together with proofs about tool naming, duplicate-identifier
repair, schema compilation, request construction and reload behaviour.

JavaScript strings are modelled as lists of characters (`Str`); all the
strings manipulated by the pipeline are ASCII, where JS UTF-16 units and
Lean `Char`s agree.
-/

set_option maxHeartbeats 1000000

abbrev Str := List Char

/-- JS `String.prototype.toLowerCase` (ASCII range, which is all the
pipeline ever feeds it). -/
def strLower (s : Str) : Str := s.map Char.toLower

/-- JS `String.prototype.split` with a single-character separator: an empty
string yields `[""]`, separators at the ends yield empty fragments. -/
def splitChar (sep : Char) : Str → List Str
  | [] => [[]]
  | c :: rest =>
    let r := splitChar sep rest
    if c = sep then [] :: r
    else (c :: r.headD []) :: r.tail

/-- Joining fragments back with a single-character separator (the inverse
direction of `splitChar`). -/
def joinSep (sep : Char) : List Str → Str
  | [] => []
  | [p] => p
  | p :: q :: rest => p ++ sep :: joinSep sep (q :: rest)

theorem splitChar_ne_nil (sep : Char) (s : Str) : splitChar sep s ≠ [] := by
  cases s with
  | nil => simp [splitChar]
  | cons c rest =>
    unfold splitChar
    by_cases hc : c = sep <;> simp [hc]

theorem joinSep_cons (sep : Char) (p : Str) (ps : List Str) (h : ps ≠ []) :
    joinSep sep (p :: ps) = p ++ sep :: joinSep sep ps := by
  cases ps with
  | nil => exact absurd rfl h
  | cons q rest => rfl

theorem joinSep_splitChar (sep : Char) (s : Str) : joinSep sep (splitChar sep s) = s := by
  induction s with
  | nil => rfl
  | cons c rest ih =>
    obtain ⟨h₁, t, hr⟩ : ∃ h₁ t, splitChar sep rest = h₁ :: t := by
      rcases hs : splitChar sep rest with _ | ⟨x, xs⟩
      · exact absurd hs (splitChar_ne_nil sep rest)
      · exact ⟨x, xs, rfl⟩
    by_cases hc : c = sep
    · show joinSep sep (splitChar sep (c :: rest)) = c :: rest
      rw [splitChar, if_pos hc, joinSep_cons sep [] (splitChar sep rest) (splitChar_ne_nil sep rest), ih]
      simp [hc]
    · show joinSep sep (splitChar sep (c :: rest)) = c :: rest
      rw [splitChar, if_neg hc, hr]
      cases t with
      | nil =>
        have hrest : joinSep sep [h₁] = rest := by rw [← hr, ih]
        simp only [List.headD, List.tail]
        simpa [joinSep] using congrArg (c :: ·) hrest
      | cons t₁ ts =>
        have hrest : h₁ ++ sep :: joinSep sep (t₁ :: ts) = rest := by
          have := ih
          rw [hr, joinSep_cons sep h₁ (t₁ :: ts) (by simp)] at this
          exact this
        simp only [List.headD, List.tail]
        rw [joinSep_cons sep (c :: h₁) (t₁ :: ts) (by simp)]
        simp [hrest]

/-- JS hyphen-run collapsing (the global regex replacement that rewrites
every maximal run of hyphens to a single hyphen): a hyphen directly followed
by another hyphen is dropped, so each run keeps exactly one hyphen. -/
def collapseHyphens : Str → Str
  | [] => []
  | [c] => [c]
  | c :: d :: rest =>
    if c = '-' ∧ d = '-' then collapseHyphens (d :: rest)
    else c :: collapseHyphens (d :: rest)

/-- JS edge-hyphen stripping (the global regex replacement anchored at both
ends): removes one leading and one trailing hyphen. -/
def trimHyphens (s : Str) : Str :=
  let s₁ := if s.head? = some '-' then s.drop 1 else s
  if s₁.getLast? = some '-' then s₁.dropLast else s₁

/-- Digit-accumulating decimal rendering; the fuel argument only bounds the
digit count so that the recursion is structural. -/
def decReprAux : Nat → Nat → Str → Str
  | 0, _, acc => acc
  | fuel + 1, n, acc =>
    if n < 10 then Nat.digitChar n :: acc
    else decReprAux fuel (n / 10) (Nat.digitChar (n % 10) :: acc)

/-- Decimal rendering of a natural number, as produced by JS template
interpolation of a number. -/
def decRepr (n : Nat) : Str := decReprAux (n + 1) n []

/-- Reference decimal rendering by well-founded recursion, used only in
proofs. -/
def decReprSlow (n : Nat) : Str :=
  if h : n < 10 then [Nat.digitChar n]
  else decReprSlow (n / 10) ++ [Nat.digitChar (n % 10)]
decreasing_by exact Nat.div_lt_self (by omega) (by omega)

theorem decReprAux_eq_slow :
    ∀ (fuel n : Nat) (acc : Str), n < 10 ^ (fuel + 1) →
      decReprAux (fuel + 1) n acc = decReprSlow n ++ acc := by
  intro fuel
  induction fuel with
  | zero =>
    intro n acc hn
    have h10 : n < 10 := by simpa using hn
    rw [decReprAux, if_pos h10, decReprSlow, dif_pos h10]
    rfl
  | succ fuel ih =>
    intro n acc hn
    by_cases h10 : n < 10
    · rw [decReprAux, if_pos h10, decReprSlow, dif_pos h10]
      rfl
    · rw [decReprAux, if_neg h10, decReprSlow, dif_neg h10]
      rw [ih (n / 10) (Nat.digitChar (n % 10) :: acc)
        (by
          rw [pow_succ] at hn
          exact (Nat.div_lt_iff_lt_mul (by omega)).mpr hn)]
      simp

theorem decRepr_eq_slow (n : Nat) : decRepr n = decReprSlow n := by
  have hn : n < 10 ^ (n + 1) := by
    have h1 : n < 2 ^ (n + 1) :=
      lt_of_lt_of_le (Nat.lt_two_pow n) (Nat.pow_le_pow_right (by omega) (by omega))
    have h2 : 2 ^ (n + 1) ≤ 10 ^ (n + 1) := Nat.pow_le_pow_left (by omega) (n + 1)
    omega
  have h := decReprAux_eq_slow n n [] hn
  simpa [decRepr] using h

/-- Decimal decoding, used only to prove `decRepr` injective. -/
def decVal (s : Str) : Nat := s.foldl (fun a c => a * 10 + (c.toNat - 48)) 0

theorem decVal_append (s : Str) (c : Char) :
    decVal (s ++ [c]) = decVal s * 10 + (c.toNat - 48) := by
  simp [decVal, List.foldl_append]

theorem digitChar_toNat (d : Nat) (h : d < 10) : (Nat.digitChar d).toNat - 48 = d := by
  interval_cases d <;> rfl

theorem decVal_decRepr (n : Nat) : decVal (decRepr n) = n := by
  rw [decRepr_eq_slow]
  induction n using Nat.strong_induction_on with
  | _ n ih =>
    unfold decReprSlow
    by_cases h : n < 10
    · simp only [h, dif_pos]
      show decVal [Nat.digitChar n] = n
      simp [decVal, digitChar_toNat n h]
    · simp only [h, dif_neg, not_false_iff]
      rw [decVal_append, ih (n / 10) (Nat.div_lt_self (by omega) (by omega)),
          digitChar_toNat (n % 10) (Nat.mod_lt n (by omega))]
      omega

theorem decRepr_injective : Function.Injective decRepr := by
  intro a b h
  have := decVal_decRepr a
  rw [h, decVal_decRepr] at this
  omega

/-! ## ToolGenerator: tool-name derivation and truncation -/

/-- The character class kept by the name cleanup regex: ASCII alphanumerics
and hyphens survive, everything else is removed. -/
def isNameChar (c : Char) : Bool := c.isAlphanum || c = '-'

/-- The cleanup chain applied to a joined tool name in
`ToolGenerator.generateToolName`: strip invalid characters, collapse hyphen
runs, strip edge hyphens. -/
def cleanupName (s : Str) : Str := trimHyphens (collapseHyphens (s.filter isNameChar))

/-- The middle-part reinsertion loop of `ToolGenerator.truncateToolName`:
starting from `first-last`, the first middle part whose reinsertion still
fits in 64 characters is taken (the loop breaks on first success). -/
def insertMiddleLoop (firstPart lastPart : Str) : List Str → Str
  | [] => firstPart ++ '-' :: lastPart
  | p :: ps =>
    if (firstPart ++ '-' :: (p ++ '-' :: lastPart)).length ≤ 64 then
      firstPart ++ '-' :: (p ++ '-' :: lastPart)
    else insertMiddleLoop firstPart lastPart ps

/-- `ToolGenerator.truncateToolName`: enforce the 64-character bound, keeping
the first (method) and last (endpoint) hyphen-separated parts and at most one
middle part, with a hard character truncation as final safety. -/
def truncateToolName (name : Str) : Str :=
  if name.length ≤ 64 then name
  else
    let parts := splitChar '-' name
    if parts.length ≤ 2 then name.take 64
    else
      let firstPart := parts.headD []
      let lastPart := parts.getLastD []
      let middleParts := (parts.drop 1).dropLast
      let truncated := insertMiddleLoop firstPart lastPart middleParts
      if 64 < truncated.length then truncated.take 64 else truncated

/-- The slice of an `ApiOperation` that tool naming depends on. -/
structure OperationLite where
  operationId : Str
  method : Str
  path : Str
deriving DecidableEq

/-- The path-segment pipeline of `ToolGenerator.generateToolName`: split on
slashes, drop empty segments, drop the common prefixes api/v1/v2/v3
(case-insensitively), drop `{param}` segments, lower-case the rest. -/
def pathSurvivors (path : Str) : List Str :=
  (((((splitChar '/' path).filter (fun p => 0 < p.length)).filter
      (fun p => !decide (strLower p ∈ [("api".toList), ("v1".toList), ("v2".toList), ("v3".toList)]))).filter
      (fun p => !(p.head? == some '{' && p.getLast? == some '}'))).map strLower)

/-- `ToolGenerator.generateToolName`: hyphenated operation ids are lower-cased
and used directly; otherwise the name is derived from the method and the
surviving path segments (or the literal segment `unknown` when none survive),
joined with hyphens, cleaned up, optionally prefixed, and truncated. -/
def generateToolName (toolPrefix : Str) (op : OperationLite) : Str :=
  if op.operationId ≠ [] ∧ '-' ∈ op.operationId then
    let name := strLower op.operationId
    let name := if toolPrefix ≠ [] then toolPrefix ++ '-' :: name else name
    truncateToolName name
  else
    let method := strLower op.method
    let meaningfulParts :=
      if 0 < (pathSurvivors op.path).length then pathSurvivors op.path
      else [("unknown".toList)]
    let name := cleanupName (joinSep '-' (method :: meaningfulParts))
    let name := if toolPrefix ≠ [] then toolPrefix ++ '-' :: name else name
    truncateToolName name

/-! ## SwaggerMcpServer.generateTools: the per-pass collision resolver.
JS `Map`s are modelled as insertion-ordered association lists: `set` on an
existing key updates the value in place, otherwise appends. -/

def mapHas {α : Type} (m : List (Str × α)) (k : Str) : Bool :=
  m.any (fun p => p.1 == k)

def mapGet {α : Type} (m : List (Str × α)) (k : Str) : Option α :=
  (m.find? (fun p => p.1 == k)).map Prod.snd

def mapSet {α : Type} (m : List (Str × α)) (k : Str) (v : α) : List (Str × α) :=
  if mapHas m k then m.map (fun p => if p.1 == k then (k, v) else p)
  else m ++ [(k, v)]

/-- The body of the `for` loop in `SwaggerMcpServer.generateTools`, iterated
over the generated base names (`tool.name`). The value stored in the tools
map is the index of the operation that produced the entry; the second
component of the result records the final name assigned to each operation in
order. -/
def generateToolsAux (tools : List (Str × Nat)) (nameCount : List (Str × Nat))
    (idx : Nat) : List Str → List (Str × Nat) × List Str
  | [] => (tools, [])
  | base :: rest =>
    if mapHas tools base then
      let count := (mapGet nameCount base).getD 1
      let finalName := base ++ '-' :: decRepr (count + 1)
      let r := generateToolsAux (mapSet tools finalName idx) (mapSet nameCount base (count + 1)) (idx + 1) rest
      (r.1, finalName :: r.2)
    else
      let r := generateToolsAux (mapSet tools base idx) (mapSet nameCount base 1) (idx + 1) rest
      (r.1, base :: r.2)

/-- The final tools map of one full generation pass over the given base
names. -/
def generateToolsMap (bases : List Str) : List (Str × Nat) :=
  (generateToolsAux [] [] 0 bases).1

/-- The final registered name assigned to each operation, in operation
order. -/
def assignedNames (bases : List Str) : List Str :=
  (generateToolsAux [] [] 0 bases).2

/-- One full generation pass over a list of operations: generate each base
name with `ToolGenerator.generateTool` (no tool prefix is configured in
`generateTools`), then resolve collisions. -/
def generateToolsNames (ops : List OperationLite) : List Str :=
  assignedNames (ops.map (generateToolName []))

/-! ## Association-map lemmas -/

theorem mapHas_iff {α : Type} (m : List (Str × α)) (k : Str) :
    mapHas m k = true ↔ k ∈ m.map Prod.fst := by
  unfold mapHas
  rw [List.any_eq_true]
  constructor
  · rintro ⟨p, hp, hpk⟩
    exact List.mem_map.mpr ⟨p, hp, beq_iff_eq.mp hpk⟩
  · intro h
    obtain ⟨p, hp, rfl⟩ := List.mem_map.mp h
    exact ⟨p, hp, beq_self_eq_true _⟩

theorem mapSet_fst_of_has {α : Type} (m : List (Str × α)) (k : Str) (v : α)
    (h : mapHas m k = true) : (mapSet m k v).map Prod.fst = m.map Prod.fst := by
  simp only [mapSet, h, if_pos, List.map_map]
  refine List.map_congr_left ?_
  intro p _
  by_cases hp : p.1 = k <;> simp [hp]

theorem mapSet_fst_of_not {α : Type} (m : List (Str × α)) (k : Str) (v : α)
    (h : mapHas m k = false) : (mapSet m k v).map Prod.fst = m.map Prod.fst ++ [k] := by
  simp [mapSet, h]

theorem mapHas_mapSet {α : Type} (m : List (Str × α)) (k : Str) (v : α) (x : Str) :
    mapHas (mapSet m k v) x = (mapHas m x || x == k) := by
  rcases h : mapHas m k with _ | _
  · apply Bool.eq_iff_iff.mpr
    rw [mapHas_iff, mapSet_fst_of_not m k v h, List.mem_append, List.mem_singleton,
        Bool.or_eq_true, mapHas_iff, beq_iff_eq]
  · apply Bool.eq_iff_iff.mpr
    rw [mapHas_iff, mapSet_fst_of_has m k v h, Bool.or_eq_true, mapHas_iff, beq_iff_eq]
    constructor
    · intro hm
      exact Or.inl hm
    · rintro (hm | rfl)
      · exact hm
      · exact (mapHas_iff _ _).mp h

theorem mapSet_keys_nodup {α : Type} (m : List (Str × α)) (k : Str) (v : α)
    (h : (m.map Prod.fst).Nodup) : ((mapSet m k v).map Prod.fst).Nodup := by
  rcases hk : mapHas m k with hf | ht
  · rw [mapSet_fst_of_not m k v hk]
    refine List.Nodup.append h (List.nodup_singleton k) ?_
    intro x hx hxk
    rw [List.mem_singleton] at hxk
    subst hxk
    rw [← mapHas_iff] at hx
    rw [hx] at hk
    cases hk
  · rw [mapSet_fst_of_has m k v hk]
    exact h

theorem mapGet_ge_one (m : List (Str × Nat)) (k : Str)
    (h : ∀ p ∈ m, 1 ≤ p.2) : 1 ≤ ((mapGet m k).getD 1) := by
  rcases hg : mapGet m k with _ | v
  · simp
  · simp only [Option.getD_some]
    simp only [mapGet, Option.map_eq_some'] at hg
    obtain ⟨p, hp, hpv⟩ := hg
    exact hpv ▸ h p (List.mem_of_find?_eq_some hp)

theorem mapSet_values_ge_one (m : List (Str × Nat)) (k : Str) (v : Nat)
    (hv : 1 ≤ v) (h : ∀ p ∈ m, 1 ≤ p.2) : ∀ p ∈ mapSet m k v, 1 ≤ p.2 := by
  intro p hp
  simp only [mapSet] at hp
  by_cases hk : mapHas m k = true
  · simp only [hk, if_pos] at hp
    obtain ⟨q, hq, hqp⟩ := List.mem_map.mp hp
    by_cases hq1 : q.1 = k
    · simp only [hq1, beq_self_eq_true, if_pos] at hqp
      exact hqp ▸ hv
    · simp only [beq_iff_eq, hq1, if_neg, not_false_iff] at hqp
      exact hqp ▸ h q hq
  · simp only [hk, if_neg, not_false_iff, Bool.not_eq_true, List.mem_append, List.mem_singleton] at hp
    rcases hp with hp | hp
    · exact h p hp
    · exact hp ▸ hv

/-- Behaviour of one generation pass from an arbitrary intermediate state:
the tools-map keys stay distinct, one name is assigned per operation, an
unseen base name is kept unmodified, and a colliding base name receives a
numeric hyphen suffix of at least 2. -/
theorem generateToolsAux_spec (bases : List Str) :
    ∀ (tools nameCount : List (Str × Nat)) (idx : Nat),
      (tools.map Prod.fst).Nodup →
      (∀ p ∈ nameCount, 1 ≤ p.2) →
      (((generateToolsAux tools nameCount idx bases).1.map Prod.fst).Nodup ∧
       (generateToolsAux tools nameCount idx bases).2.length = bases.length ∧
       ∀ i b, bases[i]? = some b →
         ((mapHas tools b = false ∧ b ∉ (generateToolsAux tools nameCount idx bases).2.take i) →
            (generateToolsAux tools nameCount idx bases).2[i]? = some b) ∧
         ((mapHas tools b = true ∨ b ∈ (generateToolsAux tools nameCount idx bases).2.take i) →
            ∃ k, 2 ≤ k ∧ (generateToolsAux tools nameCount idx bases).2[i]? =
              some (b ++ '-' :: decRepr k))) := by
  induction bases with
  | nil =>
    intro tools nameCount idx hnd hnc
    refine ⟨hnd, rfl, ?_⟩
    intro i b hb
    simp at hb
  | cons base rest ih =>
    intro tools nameCount idx hnd hnc
    by_cases hhas : mapHas tools base = true
    · have hstep : generateToolsAux tools nameCount idx (base :: rest) =
        ((generateToolsAux (mapSet tools (base ++ '-' :: decRepr (((mapGet nameCount base).getD 1) + 1)) idx)
            (mapSet nameCount base (((mapGet nameCount base).getD 1) + 1)) (idx + 1) rest).1,
         (base ++ '-' :: decRepr (((mapGet nameCount base).getD 1) + 1)) ::
         (generateToolsAux (mapSet tools (base ++ '-' :: decRepr (((mapGet nameCount base).getD 1) + 1)) idx)
            (mapSet nameCount base (((mapGet nameCount base).getD 1) + 1)) (idx + 1) rest).2) := by
        rw [generateToolsAux, if_pos hhas]
      set cnt := (mapGet nameCount base).getD 1 with hcnt
      set fn := base ++ '-' :: decRepr (cnt + 1) with hfn
      have hrec := ih (mapSet tools fn idx) (mapSet nameCount base (cnt + 1)) (idx + 1)
        (mapSet_keys_nodup tools fn idx hnd)
        (mapSet_values_ge_one nameCount base (cnt + 1) (by omega) hnc)
      refine ⟨by rw [hstep]; exact hrec.1, by rw [hstep]; simpa using hrec.2.1, ?_⟩
      intro i b hb
      rcases i with _ | j
      · simp only [List.getElem?_cons_zero, Option.some_inj] at hb
        subst hb
        constructor
        · rintro ⟨hf, _⟩
          rw [hf] at hhas
          cases hhas
        · intro _
          refine ⟨cnt + 1, ?_, ?_⟩
          · have := mapGet_ge_one nameCount base hnc
            omega
          · rw [hstep]
            simp only [List.getElem?_cons_zero]
      · simp only [List.getElem?_cons_succ] at hb
        have hmain := (hrec.2.2) j b hb
        have htools' : mapHas (mapSet tools fn idx) b = (mapHas tools b || b == fn) :=
          mapHas_mapSet tools fn idx b
        constructor
        · rintro ⟨hf, hnotin⟩
          rw [hstep] at hnotin ⊢
          simp only [List.take_succ_cons, List.mem_cons, not_or] at hnotin
          obtain ⟨hbfn, hnotin'⟩ := hnotin
          have : mapHas (mapSet tools fn idx) b = false := by
            rw [htools', hf]
            simpa using hbfn
          simpa using (hmain.1 ⟨this, hnotin'⟩)
        · intro hcase
          rw [hstep] at hcase ⊢
          simp only [List.take_succ_cons, List.mem_cons] at hcase
          have : mapHas (mapSet tools fn idx) b = true ∨
              b ∈ (generateToolsAux (mapSet tools fn idx) (mapSet nameCount base (cnt + 1)) (idx + 1) rest).2.take j := by
            rcases hcase with ht | hb' | hin
            · exact Or.inl (by rw [htools', ht]; rfl)
            · exact Or.inl (by rw [htools', hb']; simp)
            · exact Or.inr hin
          obtain ⟨k, hk, hout⟩ := hmain.2 this
          exact ⟨k, hk, by simpa using hout⟩
    · have hhasf : mapHas tools base = false := by
        rcases h : mapHas tools base with _ | _
        · rfl
        · exact absurd h hhas
      have hstep : generateToolsAux tools nameCount idx (base :: rest) =
        ((generateToolsAux (mapSet tools base idx) (mapSet nameCount base 1) (idx + 1) rest).1,
         base :: (generateToolsAux (mapSet tools base idx) (mapSet nameCount base 1) (idx + 1) rest).2) := by
        rw [generateToolsAux, if_neg (by rw [hhasf]; exact Bool.false_ne_true)]
      have hrec := ih (mapSet tools base idx) (mapSet nameCount base 1) (idx + 1)
        (mapSet_keys_nodup tools base idx hnd)
        (mapSet_values_ge_one nameCount base 1 (by omega) hnc)
      refine ⟨by rw [hstep]; exact hrec.1, by rw [hstep]; simpa using hrec.2.1, ?_⟩
      intro i b hb
      rcases i with _ | j
      · simp only [List.getElem?_cons_zero, Option.some_inj] at hb
        subst hb
        constructor
        · intro _
          rw [hstep]
          simp only [List.getElem?_cons_zero]
        · rintro (ht | hin)
          · rw [ht] at hhasf
            cases hhasf
          · simp at hin
      · simp only [List.getElem?_cons_succ] at hb
        have hmain := (hrec.2.2) j b hb
        have htools' : mapHas (mapSet tools base idx) b = (mapHas tools b || b == base) :=
          mapHas_mapSet tools base idx b
        constructor
        · rintro ⟨hf, hnotin⟩
          rw [hstep] at hnotin ⊢
          simp only [List.take_succ_cons, List.mem_cons, not_or] at hnotin
          obtain ⟨hbbase, hnotin'⟩ := hnotin
          have : mapHas (mapSet tools base idx) b = false := by
            rw [htools', hf]
            simpa using hbbase
          simpa using (hmain.1 ⟨this, hnotin'⟩)
        · intro hcase
          rw [hstep] at hcase ⊢
          simp only [List.take_succ_cons, List.mem_cons] at hcase
          have : mapHas (mapSet tools base idx) b = true ∨
              b ∈ (generateToolsAux (mapSet tools base idx) (mapSet nameCount base 1) (idx + 1) rest).2.take j := by
            rcases hcase with ht | hb' | hin
            · exact Or.inl (by rw [htools', ht]; rfl)
            · exact Or.inl (by rw [htools', hb']; simp)
            · exact Or.inr hin
          obtain ⟨k, hk, hout⟩ := hmain.2 this
          exact ⟨k, hk, by simpa using hout⟩

/-- Three operations whose base names come out as `get-x-2`, `get-x`,
`get-x`: the third operation's collision suffix produces `get-x-2`, which
collides with the name already registered for the first operation and
overwrites it in the tools map. -/
def c1CexOps : List OperationLite :=
  [⟨("GET-X-2".toList), ("GET".toList), ("/y".toList)⟩,
   ⟨("getX".toList), ("GET".toList), ("/x".toList)⟩,
   ⟨("getX2".toList), ("GET".toList), ("/x".toList)⟩]

/-- C1 counterexample: in the generation pass over `c1CexOps`, the collision
suffix `-2` given to the third operation reproduces the name already assigned
to the first operation, so two generated tools share the name `get-x-2` (and
the tools map retains only two of the three tools). The suffix is NOT chosen
to avoid names already seen in the pass. -/
theorem C1_counterexample :
    generateToolsNames c1CexOps =
      [("get-x-2".toList), ("get-x".toList), ("get-x-2".toList)] ∧
    ¬ (generateToolsNames c1CexOps).Nodup ∧
    (generateToolsMap (c1CexOps.map (generateToolName []))).length = 2 := by
  refine ⟨by decide, by decide, by decide⟩

/-- C1 (amended): the final tools map never holds two entries with the same
name; an operation whose base name has not been assigned before keeps it
unmodified; a colliding base name receives a suffix `-k` with `k ≥ 2` taken
from a per-base-name counter. The suffixed name is not re-checked against
names already seen, so it may coincide with (and overwrite) an earlier
tool's registration. -/
theorem C1_amended (ops : List OperationLite) (i : Nat) (b : Str)
    (hb : (ops.map (generateToolName []))[i]? = some b) :
    ((generateToolsMap (ops.map (generateToolName []))).map Prod.fst).Nodup ∧
    (generateToolsNames ops).length = ops.length ∧
    (b ∉ (generateToolsNames ops).take i → (generateToolsNames ops)[i]? = some b) ∧
    (b ∈ (generateToolsNames ops).take i →
      ∃ k, 2 ≤ k ∧ (generateToolsNames ops)[i]? = some (b ++ '-' :: decRepr k)) := by
  have h := generateToolsAux_spec (ops.map (generateToolName [])) [] [] 0
    (by simp) (by simp)
  have hmain := h.2.2 i b hb
  refine ⟨h.1, ?_, ?_, ?_⟩
  · show (generateToolsAux [] [] 0 (ops.map (generateToolName []))).2.length = ops.length
    rw [h.2.1, List.length_map]
  · intro hnot
    exact hmain.1 ⟨rfl, hnot⟩
  · intro hin
    exact hmain.2 (Or.inr hin)

/-- Two operations that both derive the base name `get-x`. -/
def c1WitOps : List OperationLite :=
  [⟨("getX".toList), ("GET".toList), ("/x".toList)⟩,
   ⟨("getX2".toList), ("GET".toList), ("/x".toList)⟩]

/-- C1 witness: instantiating the amended collision theorem at a concrete
pass in which the second operation collides. -/
theorem C1_witness :
    ∃ k, 2 ≤ k ∧ (generateToolsNames c1WitOps)[1]? =
      some (("get-x".toList) ++ '-' :: decRepr k) :=
  (C1_amended c1WitOps 1 ("get-x".toList) (by decide)).2.2.2 (by decide)

/-! ## Truncation lemmas -/

theorem insertMiddleLoop_cases (f l : Str) (ms : List Str) :
    insertMiddleLoop f l ms = f ++ '-' :: l ∨
    (∃ p, insertMiddleLoop f l ms = f ++ '-' :: (p ++ '-' :: l) ∧
      (f ++ '-' :: (p ++ '-' :: l)).length ≤ 64) := by
  induction ms with
  | nil => exact Or.inl rfl
  | cons p ps ih =>
    by_cases hp : (f ++ '-' :: (p ++ '-' :: l)).length ≤ 64
    · exact Or.inr ⟨p, by rw [insertMiddleLoop, if_pos hp], hp⟩
    · rw [insertMiddleLoop, if_neg hp]
      exact ih

/-- Part of C2 that does hold: the truncated name never exceeds 64
characters. -/
theorem truncateToolName_length (name : Str) : (truncateToolName name).length ≤ 64 := by
  unfold truncateToolName
  by_cases h1 : name.length ≤ 64
  · simpa [h1] using h1
  · simp only [h1, if_neg, not_false_iff]
    by_cases h2 : (splitChar '-' name).length ≤ 2
    · simp only [h2, if_pos, List.length_take]
      omega
    · simp only [h2, if_neg, not_false_iff]
      by_cases h3 : 64 < (insertMiddleLoop ((splitChar '-' name).headD [])
          ((splitChar '-' name).getLastD []) (((splitChar '-' name).drop 1).dropLast)).length
      · simp only [h3, if_pos, List.length_take]
        omega
      · simp only [h3, if_neg, not_false_iff]
        omega

theorem joinSep_last_suffix :
    ∀ (qs : List Str), 2 ≤ qs.length →
      ∃ pre, joinSep '-' qs = pre ++ '-' :: qs.getLastD [] := by
  intro qs
  induction qs with
  | nil => intro h; simp at h
  | cons p rest ih =>
    intro h
    cases rest with
    | nil => simp at h
    | cons q rs =>
      cases rs with
      | nil => exact ⟨p, rfl⟩
      | cons r rrs =>
        obtain ⟨pre, hpre⟩ := ih (by simp)
        refine ⟨p ++ '-' :: pre, ?_⟩
        rw [joinSep_cons '-' p (q :: r :: rrs) (by simp), hpre]
        simp

/-- Two operations whose operation ids lower-case to the same 64-character
hyphenated name. -/
def c2Op1 : OperationLite :=
  ⟨'a' :: '-' :: List.replicate 62 'b', ("GET".toList), ("/x".toList)⟩

/-- Case variant of `c2Op1` with the same lower-cased name. -/
def c2Op2 : OperationLite :=
  ⟨'A' :: '-' :: List.replicate 62 'b', ("GET".toList), ("/x".toList)⟩

/-- C2 counterexample: the collision suffix is appended after length
truncation, so the second tool generated from a colliding 64-character name
registers under a 66-character name, exceeding the 64-character bound the
claim asserts for every registered tool name. -/
theorem C2_counterexample :
    ((generateToolsNames [c2Op1, c2Op2])[1]?.getD []).length = 66 ∧
    ¬ (∀ n ∈ generateToolsNames [c2Op1, c2Op2], n.length ≤ 64) := by
  refine ⟨by decide, by decide⟩

/-- C2 (amended): every name produced by `truncateToolName` (that is, every
base name before collision suffixing) is at most 64 characters, and whenever
the method prefix and the final segment joined by a hyphen fit within 64
characters together, the truncated name keeps the method prefix and the
final segment. A collision suffix added later by `generateTools` can push a
registered name past 64 characters, and when only each segment individually
fits (but not their join) the hard cut can lose the final segment. -/
theorem C2_amended (name : Str) :
    (truncateToolName name).length ≤ 64 ∧
    (2 ≤ (splitChar '-' name).length →
      ((splitChar '-' name).headD [] ++ '-' :: (splitChar '-' name).getLastD []).length ≤ 64 →
      ((splitChar '-' name).headD [] ++ ['-']) <+: truncateToolName name ∧
      ('-' :: (splitChar '-' name).getLastD []) <:+ truncateToolName name) := by
  refine ⟨truncateToolName_length name, ?_⟩
  intro h2 hcomb
  by_cases h64 : name.length ≤ 64
  · have hres : truncateToolName name = name := by
      unfold truncateToolName
      rw [if_pos h64]
    obtain ⟨f, rest, hp⟩ : ∃ f rest, splitChar '-' name = f :: rest := by
      rcases hs : splitChar '-' name with _ | ⟨x, xs⟩
      · exact absurd hs (splitChar_ne_nil '-' name)
      · exact ⟨x, xs, rfl⟩
    have hrest : rest ≠ [] := by
      intro hnil
      rw [hp, hnil] at h2
      simp at h2
    have hname : name = f ++ '-' :: joinSep '-' rest := by
      conv_lhs => rw [← joinSep_splitChar '-' name]
      rw [hp, joinSep_cons '-' f rest hrest]
    constructor
    · rw [hres, hp]
      refine ⟨joinSep '-' rest, ?_⟩
      simp only [List.headD]
      rw [hname]
      simp
    · obtain ⟨pre, hpre⟩ := joinSep_last_suffix (splitChar '-' name) h2
      rw [joinSep_splitChar] at hpre
      rw [hres]
      exact ⟨pre, hpre.symm⟩
  · by_cases hp2 : (splitChar '-' name).length ≤ 2
    · have hlen2 : (splitChar '-' name).length = 2 := le_antisymm hp2 h2
      obtain ⟨a, b, hab⟩ := List.length_eq_two.mp hlen2
      exfalso
      apply h64
      have hha : (splitChar '-' name).headD [] = a := by rw [hab]; rfl
      have hhb : (splitChar '-' name).getLastD [] = b := by rw [hab]; rfl
      have hname : name = a ++ '-' :: b := by
        conv_lhs => rw [← joinSep_splitChar '-' name]
        rw [hab]
        rfl
      rw [hha, hhb] at hcomb
      rw [hname]
      simpa using hcomb
    · have hres : truncateToolName name =
          (if 64 < (insertMiddleLoop ((splitChar '-' name).headD [])
              ((splitChar '-' name).getLastD []) (((splitChar '-' name).drop 1).dropLast)).length
           then (insertMiddleLoop ((splitChar '-' name).headD [])
              ((splitChar '-' name).getLastD []) (((splitChar '-' name).drop 1).dropLast)).take 64
           else insertMiddleLoop ((splitChar '-' name).headD [])
              ((splitChar '-' name).getLastD []) (((splitChar '-' name).drop 1).dropLast)) := by
        unfold truncateToolName
        rw [if_neg h64, if_neg hp2]
      rcases insertMiddleLoop_cases ((splitChar '-' name).headD [])
          ((splitChar '-' name).getLastD []) (((splitChar '-' name).drop 1).dropLast) with hT | ⟨p, hT, hTlen⟩
      · have hTle : (insertMiddleLoop ((splitChar '-' name).headD [])
            ((splitChar '-' name).getLastD []) (((splitChar '-' name).drop 1).dropLast)).length ≤ 64 := by
          rw [hT]
          exact hcomb
        have hfin : truncateToolName name = (splitChar '-' name).headD [] ++ '-' ::
            (splitChar '-' name).getLastD [] := by
          rw [hres, if_neg (not_lt.mpr hTle), hT]
        constructor
        · rw [hfin]
          exact ⟨(splitChar '-' name).getLastD [], by simp⟩
        · rw [hfin]
          exact ⟨(splitChar '-' name).headD [], rfl⟩
      · have hfin : truncateToolName name = (splitChar '-' name).headD [] ++ '-' ::
            (p ++ '-' :: (splitChar '-' name).getLastD []) := by
          rw [hres, if_neg (not_lt.mpr (hT ▸ hTlen)), hT]
        constructor
        · rw [hfin]
          exact ⟨p ++ '-' :: (splitChar '-' name).getLastD [], by simp⟩
        · rw [hfin]
          refine ⟨(splitChar '-' name).headD [] ++ '-' :: p, ?_⟩
          simp

/-- A 72-character name whose method prefix and final segment jointly fit
within 64 characters. -/
def c2WitName : Str := ("get-".toList) ++ List.replicate 66 'm' ++ ("-x".toList)

/-- C2 witness: the amended truncation theorem applied at a concrete name
that actually gets truncated. -/
theorem C2_witness :
    (truncateToolName c2WitName).length ≤ 64 ∧
    (("get".toList) ++ ['-']) <+: truncateToolName c2WitName ∧
    ('-' :: 'x' :: []) <:+ truncateToolName c2WitName := by
  have h := C2_amended c2WitName
  have h2 := h.2 (by decide) (by decide)
  refine ⟨h.1, ?_, ?_⟩
  · have he : (splitChar '-' c2WitName).headD [] = ("get".toList) := by decide
    exact he ▸ h2.1
  · have he : (splitChar '-' c2WitName).getLastD [] = ['x'] := by decide
    exact he ▸ h2.2

/-! ## Cleanup-identity lemmas for derived names -/

theorem isAlphanum_ne_hyphen (c : Char) (h : c.isAlphanum = true) : c ≠ '-' := by
  intro he
  subst he
  exact absurd h (by decide)

/-- No two adjacent hyphens. -/
def noHH : Str → Prop
  | [] => True
  | [_] => True
  | c :: d :: rest => ¬(c = '-' ∧ d = '-') ∧ noHH (d :: rest)

theorem noHH_append_alnum (p s : Str) (hp : ∀ c ∈ p, c.isAlphanum) (hs : noHH s) :
    noHH (p ++ s) := by
  induction p with
  | nil => exact hs
  | cons c p' ih =>
    have ih' := ih (fun x hx => hp x (List.mem_cons_of_mem c hx))
    show noHH (c :: (p' ++ s))
    rcases hq : p' ++ s with _ | ⟨d, t⟩
    · trivial
    · rw [hq] at ih'
      exact ⟨fun hcd => isAlphanum_ne_hyphen c (hp c (List.mem_cons_self c p')) hcd.1, ih'⟩

theorem noHH_hyphen_cons (s : Str) (hs : noHH s) (hh : s.head? ≠ some '-') :
    noHH ('-' :: s) := by
  cases s with
  | nil => trivial
  | cons x xs =>
    refine ⟨fun hcd => ?_, hs⟩
    exact hh (by rw [hcd.2]; rfl)

theorem joinSep_head? (p : Str) (ps : List Str) (hp : p ≠ []) :
    (joinSep '-' (p :: ps)).head? = p.head? := by
  cases ps with
  | nil =>
    rfl
  | cons q rest =>
    rw [joinSep_cons '-' p (q :: rest) (by simp)]
    cases p with
    | nil => exact absurd rfl hp
    | cons a p' => rfl

theorem mem_joinSep (c : Char) :
    ∀ (ps : List Str), c ∈ joinSep '-' ps → (∃ p ∈ ps, c ∈ p) ∨ c = '-' := by
  intro ps
  induction ps with
  | nil => intro h; simp [joinSep] at h
  | cons p rest ih =>
    intro h
    cases rest with
    | nil =>
      exact Or.inl ⟨p, List.mem_singleton_self p, h⟩
    | cons q rs =>
      rw [joinSep_cons '-' p (q :: rs) (by simp)] at h
      rcases List.mem_append.mp h with h1 | h2
      · exact Or.inl ⟨p, List.mem_cons_self p _, h1⟩
      · rcases List.mem_cons.mp h2 with h3 | h4
        · exact Or.inr h3
        · rcases ih h4 with ⟨r, hr, hcr⟩ | hc
          · exact Or.inl ⟨r, List.mem_cons_of_mem p hr, hcr⟩
          · exact Or.inr hc

theorem noHH_joinSep :
    ∀ (ps : List Str), (∀ p ∈ ps, p ≠ [] ∧ ∀ c ∈ p, c.isAlphanum) →
      noHH (joinSep '-' ps) := by
  intro ps
  induction ps with
  | nil => intro _; trivial
  | cons p rest ih =>
    intro h
    cases rest with
    | nil =>
      show noHH (joinSep '-' [p])
      have : joinSep '-' [p] = p ++ [] := by simp [joinSep]
      rw [this]
      exact noHH_append_alnum p [] (h p (List.mem_cons_self p _)).2 trivial
    | cons q rs =>
      rw [joinSep_cons '-' p (q :: rs) (by simp)]
      have hT := ih (fun r hr => h r (List.mem_cons_of_mem p hr))
      have hq := h q (List.mem_cons_of_mem p (List.mem_cons_self q rs))
      have hhead : (joinSep '-' (q :: rs)).head? ≠ some '-' := by
        rw [joinSep_head? q rs hq.1]
        cases q with
        | nil => exact absurd rfl hq.1
        | cons a q' =>
          intro hcon
          simp only [List.head?_cons, Option.some_inj] at hcon
          exact isAlphanum_ne_hyphen a (hq.2 a (List.mem_cons_self a q')) hcon
      exact noHH_append_alnum p (joinSep '-' (q :: rs) |> ('-' :: ·))
        (h p (List.mem_cons_self p _)).2
        (noHH_hyphen_cons _ hT hhead)

theorem collapseHyphens_eq_self : ∀ (s : Str), noHH s → collapseHyphens s = s := by
  intro s
  induction s with
  | nil => intro _; rfl
  | cons c rest ih =>
    intro h
    cases rest with
    | nil => rfl
    | cons d t =>
      obtain ⟨h1, h2⟩ := h
      rw [collapseHyphens, if_neg h1]
      rw [ih h2]

theorem trimHyphens_eq_self (s : Str) (h1 : s.head? ≠ some '-')
    (h2 : s.getLast? ≠ some '-') : trimHyphens s = s := by
  unfold trimHyphens
  rw [if_neg h1]
  simp only
  rw [if_neg h2]

theorem joinSep_getLast :
    ∀ (ps : List Str) (lp : Str), (∀ p ∈ ps, p ≠ []) → ps.getLast? = some lp →
      (joinSep '-' ps).getLast? = lp.getLast? := by
  intro ps
  induction ps with
  | nil =>
    intro lp _ h
    simp at h
  | cons p rest ih =>
    intro lp h hl
    cases rest with
    | nil =>
      simp only [List.getLast?_singleton, Option.some_inj] at hl
      subst hl
      rfl
    | cons q rs =>
      rw [List.getLast?_cons_cons] at hl
      rw [joinSep_cons '-' p (q :: rs) (by simp), List.getLast?_append_cons]
      have hq : q ≠ [] := h q (by simp)
      have hih := ih lp (fun r hr => h r (List.mem_cons_of_mem p hr)) hl
      rcases hj : joinSep '-' (q :: rs) with _ | ⟨x, xs⟩
      · exfalso
        cases rs with
        | nil => exact hq (by simpa [joinSep] using hj)
        | cons r rrs =>
          rw [joinSep_cons '-' q (r :: rrs) (by simp)] at hj
          exact absurd hj (by simp)
      · rw [hj] at hih
        rw [List.getLast?_cons_cons]
        exact hih

/-- Cleaning up a hyphen-join of nonempty all-alphanumeric parts changes
nothing. -/
theorem cleanupName_joinSep (ps : List Str)
    (h : ∀ p ∈ ps, p ≠ [] ∧ ∀ c ∈ p, c.isAlphanum) (hne : ps ≠ []) :
    cleanupName (joinSep '-' ps) = joinSep '-' ps := by
  unfold cleanupName
  have hfil : (joinSep '-' ps).filter isNameChar = joinSep '-' ps := by
    apply List.filter_eq_self.mpr
    intro c hc
    rcases mem_joinSep c ps hc with ⟨p, hp, hcp⟩ | hc'
    · simp [isNameChar, (h p hp).2 c hcp]
    · simp [isNameChar, hc']
  rw [hfil, collapseHyphens_eq_self _ (noHH_joinSep ps h)]
  apply trimHyphens_eq_self
  · rcases hps : ps with _ | ⟨p, rest⟩
    · exact absurd hps hne
    · have hpne := (h p (by rw [hps]; exact List.mem_cons_self p rest)).1
      rw [joinSep_head? p rest hpne]
      rcases hp : p with _ | ⟨a, p'⟩
      · exact absurd hp hpne
      · intro hcon
        simp only [List.head?_cons, Option.some_inj] at hcon
        refine isAlphanum_ne_hyphen a ?_ hcon
        exact (h p (by rw [hps]; exact List.mem_cons_self p rest)).2 a (by rw [hp]; exact List.mem_cons_self a p')
  · obtain ⟨lp, hlp⟩ : ∃ lp, ps.getLast? = some lp := by
      have hs := (List.getLast?_isSome (l := ps)).mpr hne
      exact Option.isSome_iff_exists.mp hs
    rw [joinSep_getLast ps lp (fun p hp => (h p hp).1) hlp]
    have hmem := List.mem_of_getLast?_eq_some hlp
    have hlpne := (h lp hmem).1
    intro hcon
    have hcmem := List.mem_of_getLast?_eq_some hcon
    exact isAlphanum_ne_hyphen '-' ((h lp hmem).2 '-' hcmem) rfl

/-- The reservoir operation from the specification's end-to-end example. -/
def c4Op : OperationLite :=
  ⟨("getReservoirInfo".toList), ("GET".toList),
   ("/App/Reservoir/Info/Day/{ReservoirID}/{BeginDate}/{EndDate}".toList)⟩

/-- C4 counterexample: the path-parameter segments are dropped, not kept, so
the reservoir example derives `get-app-reservoir-info-day` and not the
claimed `get-app-reservoir-info-day-reservoirid-begindate-enddate`. -/
theorem C4_counterexample :
    generateToolName [] c4Op = ("get-app-reservoir-info-day".toList) ∧
    generateToolName [] c4Op ≠
      ("get-app-reservoir-info-day-reservoirid-begindate-enddate".toList) := by
  refine ⟨by decide, by decide⟩

/-- C4 (amended): for an operation whose identifier has no hyphen, the
derived tool name is the lower-cased method followed by the surviving path
segments in order — where `{param}` segments and the prefixes api/v1/v2/v3
are dropped — joined with hyphens, provided the segments are alphanumeric,
at least one survives, and no truncation applies. -/
theorem C4_amended (op : OperationLite) (hid : ¬ '-' ∈ op.operationId)
    (hsur : pathSurvivors op.path ≠ [])
    (halnum : ∀ p ∈ (strLower op.method :: pathSurvivors op.path),
      p ≠ [] ∧ ∀ c ∈ p, c.isAlphanum)
    (hlen : (joinSep '-' (strLower op.method :: pathSurvivors op.path)).length ≤ 64) :
    generateToolName [] op =
      joinSep '-' (strLower op.method :: pathSurvivors op.path) := by
  have hc : (op.operationId ≠ [] ∧ '-' ∈ op.operationId) = False :=
    eq_false (fun hcon => hid hcon.2)
  have h1 : (0 < (pathSurvivors op.path).length) = True :=
    eq_true (List.length_pos.mpr hsur)
  have h2 : ((([] : Str) ≠ [])) = False := by simp
  simp only [generateToolName, hc, h1, h2, if_false, if_true, ite_true, ite_false]
  rw [cleanupName_joinSep _ halnum (by simp)]
  unfold truncateToolName
  rw [if_pos hlen]

/-- C4 witness: the amended derivation theorem instantiated at the reservoir
operation gives exactly the name the code produces. -/
theorem C4_witness : generateToolName [] c4Op = ("get-app-reservoir-info-day".toList) := by
  have h := C4_amended c4Op (by decide) (by decide) (by decide) (by decide)
  rw [h]
  decide

/-- Dropping one filtered segment (common prefix or path parameter) from the
nonempty path segments leaves the surviving segments unchanged. -/
theorem pathSurvivors_drop_seg (p p' seg : Str) (l₁ l₂ : List Str)
    (hp : (splitChar '/' p).filter (fun s => 0 < s.length) = l₁ ++ seg :: l₂)
    (hp' : (splitChar '/' p').filter (fun s => 0 < s.length) = l₁ ++ l₂)
    (hseg : strLower seg ∈ [("api".toList), ("v1".toList), ("v2".toList), ("v3".toList)] ∨
      (seg.head? = some '{' ∧ seg.getLast? = some '}')) :
    pathSurvivors p = pathSurvivors p' := by
  unfold pathSurvivors
  rw [hp, hp']
  by_cases h1 : strLower seg ∈ [("api".toList), ("v1".toList), ("v2".toList), ("v3".toList)]
  · have hd : (!decide (strLower seg ∈
        [("api".toList), ("v1".toList), ("v2".toList), ("v3".toList)])) = false := by
      rw [decide_eq_true h1]
      rfl
    rw [List.filter_append, List.filter_cons, hd, if_neg Bool.false_ne_true,
      ← List.filter_append]
  · have h2 : seg.head? = some '{' ∧ seg.getLast? = some '}' := hseg.resolve_left h1
    have hd : (!decide (strLower seg ∈
        [("api".toList), ("v1".toList), ("v2".toList), ("v3".toList)])) = true := by
      rw [decide_eq_false h1]
      rfl
    have hd2 : (!(seg.head? == some '{' && seg.getLast? == some '}')) = false := by
      rw [beq_iff_eq.mpr h2.1, beq_iff_eq.mpr h2.2]
      rfl
    rw [List.filter_append, List.filter_cons, hd, if_pos rfl,
      List.filter_append, List.filter_cons, hd2, if_neg Bool.false_ne_true,
      ← List.filter_append, ← List.filter_append]

/-- C10: dropping a path segment that is either a common prefix
(api/v1/v2/v3, case-insensitively) or a `{param}` segment does not change
the derived tool name, and when no segment survives the filtering, the
derived name is the lower-cased method followed by `-unknown`. -/
theorem C10_filtered_segments (opId method p p' seg : Str) (l₁ l₂ : List Str)
    (hid : ¬ '-' ∈ opId)
    (hp : (splitChar '/' p).filter (fun s => 0 < s.length) = l₁ ++ seg :: l₂)
    (hp' : (splitChar '/' p').filter (fun s => 0 < s.length) = l₁ ++ l₂)
    (hseg : strLower seg ∈ [("api".toList), ("v1".toList), ("v2".toList), ("v3".toList)] ∨
      (seg.head? = some '{' ∧ seg.getLast? = some '}')) :
    generateToolName [] ⟨opId, method, p⟩ = generateToolName [] ⟨opId, method, p'⟩ ∧
    (∀ q : Str, pathSurvivors q = [] → strLower method ≠ [] →
      (∀ c ∈ strLower method, c.isAlphanum) → (strLower method).length + 8 ≤ 64 →
      generateToolName [] ⟨opId, method, q⟩ = strLower method ++ ("-unknown".toList)) := by
  constructor
  · have hs : pathSurvivors p = pathSurvivors p' :=
      pathSurvivors_drop_seg p p' seg l₁ l₂ hp hp' hseg
    have hc : ((opId ≠ [] ∧ '-' ∈ opId)) = False := eq_false (fun hcon => hid hcon.2)
    simp only [generateToolName, hc, if_false, ite_false]
    rw [hs]
  · intro q hq hm halnum hlen
    have hc : ((opId ≠ [] ∧ '-' ∈ opId)) = False := eq_false (fun hcon => hid hcon.2)
    have h1 : (0 < (pathSurvivors q).length) = False := by
      rw [hq]
      simp
    have h2 : ((([] : Str) ≠ [])) = False := by simp
    simp only [generateToolName, hc, h1, h2, if_false, ite_false]
    have hjoin : joinSep '-' (strLower method :: [("unknown".toList)]) =
        strLower method ++ ("-unknown".toList) := by
      rw [joinSep_cons '-' (strLower method) [("unknown".toList)] (by simp)]
      rfl
    have hparts : ∀ r ∈ (strLower method :: [("unknown".toList)]),
        r ≠ [] ∧ ∀ c ∈ r, c.isAlphanum := by
      intro r hr
      rcases List.mem_cons.mp hr with h | h
      · exact ⟨by rw [h]; exact hm, by rw [h]; exact halnum⟩
      · simp only [List.mem_singleton] at h
        subst h
        exact ⟨by decide, by decide⟩
    rw [cleanupName_joinSep (strLower method :: [("unknown".toList)]) hparts (by simp)]
    have hlen' : (joinSep '-' (strLower method :: [("unknown".toList)])).length ≤ 64 := by
      rw [hjoin, List.length_append]
      have h8 : (("-unknown".toList) : Str).length = 8 := rfl
      omega
    unfold truncateToolName
    rw [if_pos hlen']
    exact hjoin

/-- C10 witness: the filtered-segment theorem at a concrete operation whose
path contains an `api` prefix segment, and a fallback path consisting only
of a path parameter. -/
theorem C10_witness :
    generateToolName [] ⟨("getX".toList), ("GET".toList), ("/api/x".toList)⟩ =
      generateToolName [] ⟨("getX".toList), ("GET".toList), ("/x".toList)⟩ ∧
    generateToolName [] ⟨("getX".toList), ("GET".toList), ("/{id}".toList)⟩ =
      ("get".toList) ++ ("-unknown".toList) := by
  have h := C10_filtered_segments ("getX".toList) ("GET".toList) ("/api/x".toList)
    ("/x".toList) ("api".toList) [] [("x".toList)] (by decide) (by decide) (by decide)
    (by decide)
  exact ⟨h.1, h.2 ("/{id}".toList) (by decide) (by decide) (by decide) (by decide)⟩

/-! ## SwaggerMcpServer.fixDuplicateOperationIds
The repair pass over a document's operations. A document is modelled as
the flat list of its operation slots in traversal order: paths in document
order, and within each path item the fixed verb order of the extractor.
Both loops of the repair enumerate a hard-coded seven-verb method list
that omits `trace`, while `OpenApi3Parser.extractOperations` enumerates
eight verbs including `trace`; the repair therefore visits exactly the
slots whose method is in its seven-verb list, in the same relative order
in which the extractor emits them (`trace` is last within each path
item). -/

/-- The method list both passes of `fixDuplicateOperationIds` iterate:
`['get', 'post', 'put', 'delete', 'patch', 'options', 'head']`. -/
def httpMethodsRepair : List Str :=
  [("get".toList), ("post".toList), ("put".toList), ("delete".toList),
   ("patch".toList), ("options".toList), ("head".toList)]

/-- The method list `OpenApi3Parser.extractOperations` iterates — the same
seven verbs plus `trace`. -/
def httpMethodsExtract : List Str :=
  [("get".toList), ("post".toList), ("put".toList), ("delete".toList),
   ("patch".toList), ("options".toList), ("head".toList), ("trace".toList)]

/-- The identifiers of the operation slots the repair pass visits, in
visit order: slots whose (lower-case) method is in the seven-verb list. -/
def visitedIds (doc : List (Str × Str)) : List Str :=
  (doc.filter (fun o => decide (o.1 ∈ httpMethodsRepair))).map Prod.snd

/-- The identifiers of the operations `OpenApi3Parser.extractOperations`
emits (each slot's `operationId` is present, so the generated-id fallback
does not fire). -/
def extractedIds (doc : List (Str × Str)) : List Str :=
  (doc.filter (fun o => decide (o.1 ∈ httpMethodsExtract))).map Prod.snd

/-- First pass: collect the set of identifiers and the set of identifiers
seen more than once (the keys of `duplicateCount`; its numeric values are
never read by the second pass). -/
def pass1Aux : List Str → List Str → List Str → List Str × List Str
  | [], opIds, dups => (opIds, dups)
  | id :: rest, opIds, dups =>
    if id ∈ opIds then pass1Aux rest opIds (if id ∈ dups then dups else dups ++ [id])
    else pass1Aux rest (opIds ++ [id]) dups

/-- The `while` loop that searches for the first free numeric suffix,
starting at 2; the fuel argument only makes the recursion structural and is
chosen large enough to never run out. -/
def findSuffix (base : Str) (opIds processed : List Str) : Nat → Nat → Nat
  | n, 0 => n
  | n, fuel + 1 =>
    if (base ++ '_' :: decRepr n) ∈ opIds ∨ (base ++ '_' :: decRepr n) ∈ processed then
      findSuffix base opIds processed (n + 1) fuel
    else n

/-- Second pass: rewrite second-and-later occurrences of duplicated
identifiers. -/
def pass2 (dups : List Str) : List Str → List Str → List Str → List Str
  | [], _, _ => []
  | id :: rest, opIds, processed =>
    if id ∈ dups then
      if id ∈ processed then
        let n := findSuffix id opIds processed 2 ((opIds ++ processed).length + 1)
        let newId := id ++ '_' :: decRepr n
        newId :: pass2 dups rest (opIds ++ [newId]) (processed ++ [newId])
      else
        id :: pass2 dups rest opIds (processed ++ [id])
    else
      id :: pass2 dups rest opIds processed

/-- Both passes of the repair, restricted to the sequence of identifiers
they actually visit: at a visited slot the second pass depends only on the
identifier and the accumulated state, so this captures the repair's effect
on the visited identifiers. -/
def fixVisitedIds (ids : List Str) : List Str :=
  pass2 (pass1Aux ids [] []).2 ids (pass1Aux ids [] []).1 []

/-- The second pass over the document's operation slots: slots whose
method is outside the seven-verb list are never visited and keep their
identifier; visited slots follow the duplicate/processed logic of
`pass2`. -/
def pass2Doc (dups : List Str) : List (Str × Str) → List Str → List Str → List (Str × Str)
  | [], _, _ => []
  | (m, id) :: rest, opIds, processed =>
    if m ∈ httpMethodsRepair then
      if id ∈ dups then
        if id ∈ processed then
          let n := findSuffix id opIds processed 2 ((opIds ++ processed).length + 1)
          let newId := id ++ '_' :: decRepr n
          (m, newId) :: pass2Doc dups rest (opIds ++ [newId]) (processed ++ [newId])
        else
          (m, id) :: pass2Doc dups rest opIds (processed ++ [id])
      else
        (m, id) :: pass2Doc dups rest opIds processed
    else
      (m, id) :: pass2Doc dups rest opIds processed

/-- `fixDuplicateOperationIds` on a document: the first pass collects
identifiers and duplicates from the visited slots only, the second pass
rewrites visited slots only. -/
def fixDuplicateOperationIds (doc : List (Str × Str)) : List (Str × Str) :=
  pass2Doc (pass1Aux (visitedIds doc) [] []).2 doc (pass1Aux (visitedIds doc) [] []).1 []

theorem pass1Aux_opIds :
    ∀ (rest opIds dups : List Str) (x : Str),
      (x ∈ (pass1Aux rest opIds dups).1 ↔ x ∈ opIds ∨ x ∈ rest) := by
  intro rest
  induction rest with
  | nil =>
    intro opIds dups x
    simp [pass1Aux]
  | cons id rest ih =>
    intro opIds dups x
    rw [pass1Aux]
    by_cases h : id ∈ opIds
    · rw [if_pos h, ih]
      constructor
      · rintro (hx | hx)
        · exact Or.inl hx
        · exact Or.inr (List.mem_cons_of_mem id hx)
      · rintro (hx | hx)
        · exact Or.inl hx
        · rcases List.mem_cons.mp hx with rfl | hx
          · exact Or.inl h
          · exact Or.inr hx
    · rw [if_neg h, ih]
      constructor
      · rintro (hx | hx)
        · rcases List.mem_append.mp hx with hx | hx
          · exact Or.inl hx
          · rw [List.mem_singleton] at hx
            exact Or.inr (hx ▸ List.mem_cons_self id rest)
        · exact Or.inr (List.mem_cons_of_mem id hx)
      · rintro (hx | hx)
        · exact Or.inl (List.mem_append.mpr (Or.inl hx))
        · rcases List.mem_cons.mp hx with rfl | hx
          · exact Or.inl (List.mem_append.mpr (Or.inr (List.mem_singleton_self x)))
          · exact Or.inr hx

theorem pass1Aux_dups :
    ∀ (rest opIds dups : List Str) (x : Str),
      (x ∈ (pass1Aux rest opIds dups).2 ↔
        x ∈ dups ∨ (x ∈ opIds ∧ x ∈ rest) ∨ 2 ≤ rest.count x) := by
  intro rest
  induction rest with
  | nil =>
    intro opIds dups x
    simp [pass1Aux]
  | cons id rest ih =>
    intro opIds dups x
    rw [pass1Aux]
    by_cases h : id ∈ opIds
    · rw [if_pos h, ih]
      have hmem : x ∈ (if id ∈ dups then dups else dups ++ [id]) ↔ x ∈ dups ∨ x = id := by
        by_cases hd : id ∈ dups
        · rw [if_pos hd]
          constructor
          · exact Or.inl
          · rintro (hx | rfl)
            · exact hx
            · exact hd
        · rw [if_neg hd]
          rw [List.mem_append, List.mem_singleton]
      rw [hmem]
      by_cases hx : x = id
      · subst hx
        have hcnt : (x :: rest).count x = rest.count x + 1 := List.count_cons_self x rest
        constructor
        · intro _
          exact Or.inr (Or.inl ⟨h, List.mem_cons_self x rest⟩)
        · intro _
          exact Or.inl (Or.inr rfl)
      · have hcnt : (id :: rest).count x = rest.count x := by
          rw [List.count_cons]
          simp [Ne.symm hx]
        rw [hcnt]
        constructor
        · rintro ((hd | he) | ⟨ho, hr⟩ | hc)
          · exact Or.inl hd
          · exact absurd he hx
          · exact Or.inr (Or.inl ⟨ho, List.mem_cons_of_mem id hr⟩)
          · exact Or.inr (Or.inr hc)
        · rintro (hd | ⟨ho, hr⟩ | hc)
          · exact Or.inl (Or.inl hd)
          · rcases List.mem_cons.mp hr with he | hr
            · exact absurd he hx
            · exact Or.inr (Or.inl ⟨ho, hr⟩)
          · exact Or.inr (Or.inr hc)
    · rw [if_neg h, ih]
      by_cases hx : x = id
      · subst hx
        have hcnt : (x :: rest).count x = rest.count x + 1 := List.count_cons_self x rest
        rw [hcnt]
        have hmemr : x ∈ rest ↔ 0 < rest.count x := List.count_pos_iff.symm
        constructor
        · rintro (hd | ⟨ho, hr⟩ | hc)
          · exact Or.inl hd
          · rw [hmemr] at hr
            exact Or.inr (Or.inr (by omega))
          · exact Or.inr (Or.inr (by omega))
        · rintro (hd | ⟨ho, _⟩ | hc)
          · exact Or.inl hd
          · exact absurd ho h
          · have hr : 0 < rest.count x := by omega
            exact Or.inr (Or.inl ⟨List.mem_append.mpr (Or.inr (List.mem_singleton_self x)),
              List.count_pos_iff.mp hr⟩)
      · have hcnt : (id :: rest).count x = rest.count x := by
          rw [List.count_cons]
          simp [Ne.symm hx]
        rw [hcnt]
        have hmo : x ∈ opIds ++ [id] ↔ x ∈ opIds := by
          rw [List.mem_append, List.mem_singleton]
          constructor
          · rintro (ho | he)
            · exact ho
            · exact absurd he hx
          · exact Or.inl
        rw [hmo]
        constructor
        · rintro (hd | ⟨ho, hr⟩ | hc)
          · exact Or.inl hd
          · exact Or.inr (Or.inl ⟨ho, List.mem_cons_of_mem id hr⟩)
          · exact Or.inr (Or.inr hc)
        · rintro (hd | ⟨ho, hr⟩ | hc)
          · exact Or.inl hd
          · rcases List.mem_cons.mp hr with he | hr
            · exact absurd he hx
            · exact Or.inr (Or.inl ⟨ho, hr⟩)
          · exact Or.inr (Or.inr hc)

/-- The duplicate set computed by the first pass is exactly the set of
identifiers occurring at least twice. -/
theorem pass1_dups_iff (ids : List Str) (x : Str) :
    x ∈ (pass1Aux ids [] []).2 ↔ 2 ≤ ids.count x := by
  rw [pass1Aux_dups]
  simp

/-- The identifier set computed by the first pass is exactly the set of
identifiers of the document. -/
theorem pass1_opIds_iff (ids : List Str) (x : Str) :
    x ∈ (pass1Aux ids [] []).1 ↔ x ∈ ids := by
  rw [pass1Aux_opIds]
  simp

theorem cand_injective (base : Str) :
    Function.Injective (fun n => base ++ '_' :: decRepr n) := by
  intro a b h
  simp only at h
  have h2 := List.append_cancel_left h
  have h3 : decRepr a = decRepr b := by
    injection h2
  exact decRepr_injective h3

theorem exists_fresh (l : List Str) (f : Nat → Str) (hf : Function.Injective f) (n : Nat) :
    ∃ m, n ≤ m ∧ m < n + l.length + 1 ∧ f m ∉ l := by
  by_contra hcon
  push_neg at hcon
  have hsub : (Finset.range (l.length + 1)).image (fun i => f (n + i)) ⊆ l.toFinset := by
    intro y hy
    simp only [Finset.mem_image, Finset.mem_range] at hy
    obtain ⟨i, hi, rfl⟩ := hy
    rw [List.mem_toFinset]
    exact hcon (n + i) (by omega) (by omega)
  have hcard : ((Finset.range (l.length + 1)).image (fun i => f (n + i))).card
      = l.length + 1 := by
    rw [Finset.card_image_of_injective _ (fun a b hab => by
      have := hf hab
      omega)]
    exact Finset.card_range _
  have hle := Finset.card_le_card hsub
  have htf := l.toFinset_card_le
  omega

theorem findSuffix_spec (base : Str) (opIds processed : List Str) :
    ∀ (fuel n : Nat),
      (∃ m, n ≤ m ∧ m < n + fuel ∧
        (base ++ '_' :: decRepr m) ∉ opIds ∧ (base ++ '_' :: decRepr m) ∉ processed) →
      (2 ≤ n → 2 ≤ findSuffix base opIds processed n fuel) ∧
      (base ++ '_' :: decRepr (findSuffix base opIds processed n fuel)) ∉ opIds ∧
      (base ++ '_' :: decRepr (findSuffix base opIds processed n fuel)) ∉ processed ∧
      (∀ k, n ≤ k → k < findSuffix base opIds processed n fuel →
        (base ++ '_' :: decRepr k) ∈ opIds ∨ (base ++ '_' :: decRepr k) ∈ processed) := by
  intro fuel
  induction fuel with
  | zero =>
    rintro n ⟨m, hm1, hm2, _⟩
    omega
  | succ fuel ih =>
    intro n hex
    rw [findSuffix]
    by_cases hc : (base ++ '_' :: decRepr n) ∈ opIds ∨ (base ++ '_' :: decRepr n) ∈ processed
    · rw [if_pos hc]
      have hex' : ∃ m, n + 1 ≤ m ∧ m < n + 1 + fuel ∧
          (base ++ '_' :: decRepr m) ∉ opIds ∧ (base ++ '_' :: decRepr m) ∉ processed := by
        obtain ⟨m, h1, h2, h3, h4⟩ := hex
        have hne : m ≠ n := by
          rintro rfl
          rcases hc with h | h
          · exact h3 h
          · exact h4 h
        exact ⟨m, by omega, by omega, h3, h4⟩
      obtain ⟨iha, ihb, ihc', ihd⟩ := ih (n + 1) hex'
      refine ⟨fun h2n => iha (by omega), ihb, ihc', ?_⟩
      intro k hk1 hk2
      by_cases hkn : k = n
      · subst hkn
        exact hc
      · exact ihd k (by omega) hk2
    · rw [if_neg hc]
      push_neg at hc
      exact ⟨fun h => h, hc.1, hc.2, fun k hk1 hk2 => absurd (lt_of_le_of_lt hk1 hk2)
        (lt_irrefl n)⟩

/-- The suffix search at its call site: the fuel is always sufficient, so
the result is at least 2, fresh with respect to both sets, and all earlier
candidates collide. -/
theorem findSuffix_call (base : Str) (opIds processed : List Str) :
    2 ≤ findSuffix base opIds processed 2 ((opIds ++ processed).length + 1) ∧
    (base ++ '_' :: decRepr (findSuffix base opIds processed 2 ((opIds ++ processed).length + 1))) ∉ opIds ∧
    (base ++ '_' :: decRepr (findSuffix base opIds processed 2 ((opIds ++ processed).length + 1))) ∉ processed ∧
    (∀ k, 2 ≤ k → k < findSuffix base opIds processed 2 ((opIds ++ processed).length + 1) →
      (base ++ '_' :: decRepr k) ∈ opIds ∨ (base ++ '_' :: decRepr k) ∈ processed) := by
  have hex : ∃ m, 2 ≤ m ∧ m < 2 + ((opIds ++ processed).length + 1) ∧
      (base ++ '_' :: decRepr m) ∉ opIds ∧ (base ++ '_' :: decRepr m) ∉ processed := by
    obtain ⟨m, h1, h2, h3⟩ := exists_fresh (opIds ++ processed)
      (fun n => base ++ '_' :: decRepr n) (cand_injective base) 2
    rw [List.mem_append] at h3
    push_neg at h3
    exact ⟨m, h1, by omega, h3.1, h3.2⟩
  obtain ⟨h1, h2, h3, h4⟩ := findSuffix_spec base opIds processed
    ((opIds ++ processed).length + 1) 2 hex
  exact ⟨h1 (le_refl 2), h2, h3, h4⟩

/-- Core invariant proof for the second pass of the duplicate-identifier
repair: one output per input, outputs fresh with respect to the processed
set, outputs distinct, first occurrences kept verbatim, later occurrences
rewritten to `<id>_<n>` with `n ≥ 2` and every skipped candidate suffix
colliding with an existing or already-assigned identifier. -/
theorem pass2_spec (ids dups : List Str)
    (hdups : ∀ x, x ∈ dups ↔ 2 ≤ ids.count x) :
    ∀ (rest pre opIds processed : List Str),
      pre ++ rest = ids →
      (∀ x ∈ ids, x ∈ opIds) →
      (∀ x ∈ processed, x ∈ opIds) →
      (∀ x ∈ processed, x ∈ dups ∨ x ∉ ids) →
      (∀ x ∈ dups, x ∈ pre → x ∈ processed) →
      (∀ x ∈ dups, x ∈ processed → x ∈ pre) →
      ((pass2 dups rest opIds processed).length = rest.length ∧
       (∀ y ∈ pass2 dups rest opIds processed, y ∉ processed) ∧
       (∀ y ∈ pass2 dups rest opIds processed, y ∈ rest ∨ y ∉ ids) ∧
       (pass2 dups rest opIds processed).Nodup ∧
       (∀ i x, rest[i]? = some x →
         ((x ∉ pre ∧ x ∉ rest.take i) → (pass2 dups rest opIds processed)[i]? = some x) ∧
         ((x ∈ pre ∨ x ∈ rest.take i) → ∃ n, 2 ≤ n ∧
           (pass2 dups rest opIds processed)[i]? = some (x ++ '_' :: decRepr n) ∧
           ∀ m, 2 ≤ m → m < n → ((x ++ '_' :: decRepr m) ∈ opIds ∨
             (x ++ '_' :: decRepr m) ∈ processed ∨
             (x ++ '_' :: decRepr m) ∈ pass2 dups rest opIds processed)))) := by
  have hdups_sub : ∀ x ∈ dups, x ∈ ids := by
    intro x hx
    have := (hdups x).mp hx
    exact List.count_pos_iff.mp (by omega)
  intro rest
  induction rest with
  | nil =>
    intro pre opIds processed hids hidsop hprocop hproc3 h4 h5
    refine ⟨rfl, by simp [pass2], by simp [pass2], by simp [pass2], ?_⟩
    intro i x hx
    simp at hx
  | cons id rest' ih =>
    intro pre opIds processed hids hidsop hprocop hproc3 h4 h5
    have hidmem : id ∈ ids := by
      rw [← hids]
      exact List.mem_append.mpr (Or.inr (List.mem_cons_self id rest'))
    have hids' : (pre ++ [id]) ++ rest' = ids := by
      rw [List.append_assoc]
      exact hids
    have hcount2 : id ∈ pre ∨ id ∈ rest' → 2 ≤ ids.count id := by
      intro hc
      rw [← hids, List.count_append, List.count_cons_self]
      rcases hc with h | h
      · have := List.count_pos_iff.mpr h
        omega
      · have := List.count_pos_iff.mpr h
        omega
    by_cases hd : id ∈ dups
    · by_cases hp : id ∈ processed
      · -- rename branch
        obtain ⟨hn2, hfresh1, hfresh2, hmin⟩ := findSuffix_call id opIds processed
        set n := findSuffix id opIds processed 2 ((opIds ++ processed).length + 1) with hn
        set newId := id ++ '_' :: decRepr n with hnew
        have hstep : pass2 dups (id :: rest') opIds processed =
            newId :: pass2 dups rest' (opIds ++ [newId]) (processed ++ [newId]) := by
          rw [pass2, if_pos hd, if_pos hp]
        have hnewnotids : newId ∉ ids := fun hin => hfresh1 (hidsop _ hin)
        obtain ⟨ihlen, ihproc, ihrest, ihnd, ihpt⟩ :=
          ih (pre ++ [id]) (opIds ++ [newId]) (processed ++ [newId]) hids'
            (fun x hx => List.mem_append.mpr (Or.inl (hidsop x hx)))
            (by
              intro x hx
              rcases List.mem_append.mp hx with hx | hx
              · exact List.mem_append.mpr (Or.inl (hprocop x hx))
              · exact List.mem_append.mpr (Or.inr hx))
            (by
              intro x hx
              rcases List.mem_append.mp hx with hx | hx
              · exact hproc3 x hx
              · rw [List.mem_singleton] at hx
                exact Or.inr (hx ▸ hnewnotids))
            (by
              intro x hx hxp
              rcases List.mem_append.mp hxp with hxp | hxp
              · exact List.mem_append.mpr (Or.inl (h4 x hx hxp))
              · rw [List.mem_singleton] at hxp
                subst hxp
                exact List.mem_append.mpr (Or.inl hp))
            (by
              intro x hx hxp
              rcases List.mem_append.mp hxp with hxp | hxp
              · exact List.mem_append.mpr (Or.inl (h5 x hx hxp))
              · rw [List.mem_singleton] at hxp
                subst hxp
                exact absurd (hdups_sub _ hx) hnewnotids)
        refine ⟨?_, ?_, ?_, ?_, ?_⟩
        · rw [hstep]
          simp [ihlen]
        · intro y hy
          rw [hstep] at hy
          rcases List.mem_cons.mp hy with rfl | hy
          · exact hfresh2
          · intro hyp
            exact ihproc y hy (List.mem_append.mpr (Or.inl hyp))
        · intro y hy
          rw [hstep] at hy
          rcases List.mem_cons.mp hy with rfl | hy
          · exact Or.inr hnewnotids
          · rcases ihrest y hy with hr | hr
            · exact Or.inl (List.mem_cons_of_mem id hr)
            · exact Or.inr hr
        · rw [hstep]
          refine List.nodup_cons.mpr ⟨?_, ihnd⟩
          intro hmemo
          exact ihproc newId hmemo (List.mem_append.mpr (Or.inr (List.mem_singleton_self newId)))
        · intro i x hx
          rcases i with _ | j
          · simp only [List.getElem?_cons_zero, Option.some_inj] at hx
            subst hx
            constructor
            · rintro ⟨hnp, _⟩
              exact absurd (h5 id hd hp) hnp
            · intro _
              refine ⟨n, hn2, by rw [hstep, List.getElem?_cons_zero], ?_⟩
              intro m hm1 hm2
              rcases hmin m hm1 hm2 with h | h
              · exact Or.inl h
              · exact Or.inr (Or.inl h)
          · simp only [List.getElem?_cons_succ] at hx
            obtain ⟨pt1, pt2⟩ := ihpt j x hx
            constructor
            · rintro ⟨hnp, hnt⟩
              simp only [List.take_succ_cons, List.mem_cons, not_or] at hnt
              obtain ⟨hxid, hnt'⟩ := hnt
              have hx1 : x ∉ pre ++ [id] := by
                rw [List.mem_append, List.mem_singleton]
                rintro (h | h)
                · exact hnp h
                · exact hxid h
              have := pt1 ⟨hx1, hnt'⟩
              rw [hstep]
              simpa using this
            · intro hcase
              have hx1 : x ∈ pre ++ [id] ∨ x ∈ rest'.take j := by
                rcases hcase with h | h
                · exact Or.inl (List.mem_append.mpr (Or.inl h))
                · rcases List.mem_cons.mp (by simpa using h) with rfl | h'
                  · exact Or.inl (List.mem_append.mpr (Or.inr (List.mem_singleton_self x)))
                  · exact Or.inr h'
              obtain ⟨n', hn', hout', hmin'⟩ := pt2 hx1
              refine ⟨n', hn', by rw [hstep]; simpa using hout', ?_⟩
              intro m hm1 hm2
              rcases hmin' m hm1 hm2 with h | h | h
              · rcases List.mem_append.mp h with h | h
                · exact Or.inl h
                · rw [List.mem_singleton] at h
                  refine Or.inr (Or.inr ?_)
                  rw [hstep, h]
                  exact List.mem_cons_self newId _
              · rcases List.mem_append.mp h with h | h
                · exact Or.inr (Or.inl h)
                · rw [List.mem_singleton] at h
                  refine Or.inr (Or.inr ?_)
                  rw [hstep, h]
                  exact List.mem_cons_self newId _
              · refine Or.inr (Or.inr ?_)
                rw [hstep]
                exact List.mem_cons_of_mem newId h
      · -- first occurrence of a duplicated identifier
        have hstep : pass2 dups (id :: rest') opIds processed =
            id :: pass2 dups rest' opIds (processed ++ [id]) := by
          rw [pass2, if_pos hd, if_neg hp]
        obtain ⟨ihlen, ihproc, ihrest, ihnd, ihpt⟩ :=
          ih (pre ++ [id]) opIds (processed ++ [id]) hids' hidsop
            (by
              intro x hx
              rcases List.mem_append.mp hx with hx | hx
              · exact hprocop x hx
              · rw [List.mem_singleton] at hx
                exact hx ▸ hidsop id hidmem)
            (by
              intro x hx
              rcases List.mem_append.mp hx with hx | hx
              · exact hproc3 x hx
              · rw [List.mem_singleton] at hx
                exact Or.inl (hx ▸ hd))
            (by
              intro x hx hxp
              rcases List.mem_append.mp hxp with hxp | hxp
              · exact List.mem_append.mpr (Or.inl (h4 x hx hxp))
              · exact List.mem_append.mpr (Or.inr hxp))
            (by
              intro x hx hxp
              rcases List.mem_append.mp hxp with hxp | hxp
              · exact List.mem_append.mpr (Or.inl (h5 x hx hxp))
              · exact List.mem_append.mpr (Or.inr hxp))
        refine ⟨?_, ?_, ?_, ?_, ?_⟩
        · rw [hstep]
          simp [ihlen]
        · intro y hy
          rw [hstep] at hy
          rcases List.mem_cons.mp hy with rfl | hy
          · exact hp
          · intro hyp
            exact ihproc y hy (List.mem_append.mpr (Or.inl hyp))
        · intro y hy
          rw [hstep] at hy
          rcases List.mem_cons.mp hy with rfl | hy
          · exact Or.inl (List.mem_cons_self y rest')
          · rcases ihrest y hy with hr | hr
            · exact Or.inl (List.mem_cons_of_mem id hr)
            · exact Or.inr hr
        · rw [hstep]
          refine List.nodup_cons.mpr ⟨?_, ihnd⟩
          intro hmemo
          exact ihproc id hmemo (List.mem_append.mpr (Or.inr (List.mem_singleton_self id)))
        · intro i x hx
          rcases i with _ | j
          · simp only [List.getElem?_cons_zero, Option.some_inj] at hx
            subst hx
            constructor
            · intro _
              rw [hstep, List.getElem?_cons_zero]
            · rintro (hpre | hins)
              · exact absurd (h4 id hd hpre) hp
              · simp at hins
          · simp only [List.getElem?_cons_succ] at hx
            obtain ⟨pt1, pt2⟩ := ihpt j x hx
            constructor
            · rintro ⟨hnp, hnt⟩
              simp only [List.take_succ_cons, List.mem_cons, not_or] at hnt
              obtain ⟨hxid, hnt'⟩ := hnt
              have hx1 : x ∉ pre ++ [id] := by
                rw [List.mem_append, List.mem_singleton]
                rintro (h | h)
                · exact hnp h
                · exact hxid h
              have := pt1 ⟨hx1, hnt'⟩
              rw [hstep]
              simpa using this
            · intro hcase
              have hx1 : x ∈ pre ++ [id] ∨ x ∈ rest'.take j := by
                rcases hcase with h | h
                · exact Or.inl (List.mem_append.mpr (Or.inl h))
                · rcases List.mem_cons.mp (by simpa using h) with rfl | h'
                  · exact Or.inl (List.mem_append.mpr (Or.inr (List.mem_singleton_self x)))
                  · exact Or.inr h'
              obtain ⟨n', hn', hout', hmin'⟩ := pt2 hx1
              refine ⟨n', hn', by rw [hstep]; simpa using hout', ?_⟩
              intro m hm1 hm2
              rcases hmin' m hm1 hm2 with h | h | h
              · exact Or.inl h
              · rcases List.mem_append.mp h with h | h
                · exact Or.inr (Or.inl h)
                · rw [List.mem_singleton] at h
                  refine Or.inr (Or.inr ?_)
                  rw [hstep, h]
                  exact List.mem_cons_self id _
              · refine Or.inr (Or.inr ?_)
                rw [hstep]
                exact List.mem_cons_of_mem id h
    · -- identifier not duplicated: untouched, no state change
      have hstep : pass2 dups (id :: rest') opIds processed =
          id :: pass2 dups rest' opIds processed := by
        rw [pass2, if_neg hd]
      have hidnp : id ∉ processed := by
        intro hin
        rcases hproc3 id hin with h | h
        · exact hd h
        · exact h hidmem
      obtain ⟨ihlen, ihproc, ihrest, ihnd, ihpt⟩ :=
        ih (pre ++ [id]) opIds processed hids' hidsop hprocop hproc3
          (by
            intro x hx hxp
            rcases List.mem_append.mp hxp with hxp | hxp
            · exact h4 x hx hxp
            · rw [List.mem_singleton] at hxp
              exact absurd (hxp ▸ hx) hd)
          (fun x hx hxp => List.mem_append.mpr (Or.inl (h5 x hx hxp)))
      refine ⟨?_, ?_, ?_, ?_, ?_⟩
      · rw [hstep]
        simp [ihlen]
      · intro y hy
        rw [hstep] at hy
        rcases List.mem_cons.mp hy with rfl | hy
        · exact hidnp
        · exact ihproc y hy
      · intro y hy
        rw [hstep] at hy
        rcases List.mem_cons.mp hy with rfl | hy
        · exact Or.inl (List.mem_cons_self y rest')
        · rcases ihrest y hy with hr | hr
          · exact Or.inl (List.mem_cons_of_mem id hr)
          · exact Or.inr hr
      · rw [hstep]
        refine List.nodup_cons.mpr ⟨?_, ihnd⟩
        intro hmemo
        rcases ihrest id hmemo with hr | hr
        · exact hd ((hdups id).mpr (hcount2 (Or.inr hr)))
        · exact hr hidmem
      · intro i x hx
        rcases i with _ | j
        · simp only [List.getElem?_cons_zero, Option.some_inj] at hx
          subst hx
          constructor
          · intro _
            rw [hstep, List.getElem?_cons_zero]
          · rintro (hpre | hins)
            · exact absurd ((hdups id).mpr (hcount2 (Or.inl hpre))) hd
            · simp at hins
        · simp only [List.getElem?_cons_succ] at hx
          obtain ⟨pt1, pt2⟩ := ihpt j x hx
          constructor
          · rintro ⟨hnp, hnt⟩
            simp only [List.take_succ_cons, List.mem_cons, not_or] at hnt
            obtain ⟨hxid, hnt'⟩ := hnt
            have hx1 : x ∉ pre ++ [id] := by
              rw [List.mem_append, List.mem_singleton]
              rintro (h | h)
              · exact hnp h
              · exact hxid h
            have := pt1 ⟨hx1, hnt'⟩
            rw [hstep]
            simpa using this
          · intro hcase
            have hx1 : x ∈ pre ++ [id] ∨ x ∈ rest'.take j := by
              rcases hcase with h | h
              · exact Or.inl (List.mem_append.mpr (Or.inl h))
              · rcases List.mem_cons.mp (by simpa using h) with rfl | h'
                · exact Or.inl (List.mem_append.mpr (Or.inr (List.mem_singleton_self x)))
                · exact Or.inr h'
            obtain ⟨n', hn', hout', hmin'⟩ := pt2 hx1
            refine ⟨n', hn', by rw [hstep]; simpa using hout', ?_⟩
            intro m hm1 hm2
            rcases hmin' m hm1 hm2 with h | h | h
            · exact Or.inl h
            · exact Or.inr (Or.inl h)
            · refine Or.inr (Or.inr ?_)
              rw [hstep]
              exact List.mem_cons_of_mem id h

/-- The repair restricted to the identifiers it visits keeps one
identifier per visited slot, makes the visited identifiers pairwise
distinct, leaves every first occurrence unchanged, and rewrites each later
occurrence to a suffixed form `<id>_<n>` with `n ≥ 2`, where every skipped
suffix between 2 and `n` collided with an existing or an already-assigned
identifier. -/
theorem fixVisitedIds_spec (ids : List Str) (i : Nat) (x : Str)
    (hx : ids[i]? = some x) :
    (fixVisitedIds ids).length = ids.length ∧
    (fixVisitedIds ids).Nodup ∧
    (x ∉ ids.take i → (fixVisitedIds ids)[i]? = some x) ∧
    (x ∈ ids.take i → ∃ n, 2 ≤ n ∧
      (fixVisitedIds ids)[i]? = some (x ++ '_' :: decRepr n) ∧
      ∀ m, 2 ≤ m → m < n → ((x ++ '_' :: decRepr m) ∈ ids ∨
        (x ++ '_' :: decRepr m) ∈ fixVisitedIds ids)) := by
  unfold fixVisitedIds
  have h := pass2_spec ids (pass1Aux ids [] []).2 (fun y => pass1_dups_iff ids y)
    ids [] (pass1Aux ids [] []).1 [] (by simp)
    (fun y hy => (pass1_opIds_iff ids y).mpr hy)
    (by simp) (by simp) (by simp) (by simp)
  obtain ⟨hlen, hproc, hrest, hnd, hpt⟩ := h
  obtain ⟨pt1, pt2⟩ := hpt i x hx
  refine ⟨hlen, hnd, ?_, ?_⟩
  · intro hnt
    exact pt1 ⟨by simp, hnt⟩
  · intro hin
    obtain ⟨n, hn, hout, hmin⟩ := pt2 (Or.inr hin)
    refine ⟨n, hn, hout, ?_⟩
    intro m hm1 hm2
    rcases hmin m hm1 hm2 with h | h | h
    · exact Or.inl ((pass1_opIds_iff ids _).mp h)
    · simp at h
    · exact Or.inr h

theorem visitedIds_cons_mem (m x : Str) (rest : List (Str × Str))
    (hm : m ∈ httpMethodsRepair) :
    visitedIds ((m, x) :: rest) = x :: visitedIds rest := by
  simp [visitedIds, List.filter_cons, hm]

theorem visitedIds_cons_not (m x : Str) (rest : List (Str × Str))
    (hm : ¬ m ∈ httpMethodsRepair) :
    visitedIds ((m, x) :: rest) = visitedIds rest := by
  simp [visitedIds, List.filter_cons, hm]

/-- The document-level second pass never changes a slot's method, acts on
the visited identifiers exactly as `pass2` does, and leaves every slot
whose method is outside the seven-verb list untouched. -/
theorem pass2Doc_eq (dups : List Str) :
    ∀ (doc : List (Str × Str)) (opIds processed : List Str),
      (pass2Doc dups doc opIds processed).map Prod.fst = doc.map Prod.fst ∧
      visitedIds (pass2Doc dups doc opIds processed) =
        pass2 dups (visitedIds doc) opIds processed ∧
      ∀ (i : Nat) (m x : Str), doc[i]? = some (m, x) → ¬ m ∈ httpMethodsRepair →
        (pass2Doc dups doc opIds processed)[i]? = some (m, x) := by
  intro doc
  induction doc with
  | nil =>
    intro opIds processed
    refine ⟨rfl, rfl, ?_⟩
    intro i m x hx
    simp at hx
  | cons op rest ih =>
    intro opIds processed
    obtain ⟨m, id⟩ := op
    by_cases hm : m ∈ httpMethodsRepair
    · rw [pass2Doc, if_pos hm, visitedIds_cons_mem m id rest hm, pass2]
      by_cases hd : id ∈ dups
      · by_cases hp : id ∈ processed
        · simp only [if_pos hd, if_pos hp]
          refine ⟨?_, ?_, ?_⟩
          · simp only [List.map_cons]
            exact congrArg (m :: ·) (ih _ _).1
          · rw [visitedIds_cons_mem _ _ _ hm]
            exact congrArg (_ :: ·) (ih _ _).2.1
          · intro i m' x hx hm'
            match i with
            | 0 =>
              rw [List.getElem?_cons_zero] at hx
              cases hx
              exact absurd hm hm'
            | i + 1 =>
              rw [List.getElem?_cons_succ] at hx ⊢
              exact (ih _ _).2.2 i m' x hx hm'
        · simp only [if_pos hd, if_neg hp]
          refine ⟨?_, ?_, ?_⟩
          · simp only [List.map_cons]
            exact congrArg (m :: ·) (ih _ _).1
          · rw [visitedIds_cons_mem _ _ _ hm]
            exact congrArg (_ :: ·) (ih _ _).2.1
          · intro i m' x hx hm'
            match i with
            | 0 =>
              rw [List.getElem?_cons_zero] at hx
              cases hx
              exact absurd hm hm'
            | i + 1 =>
              rw [List.getElem?_cons_succ] at hx ⊢
              exact (ih _ _).2.2 i m' x hx hm'
      · simp only [if_neg hd]
        refine ⟨?_, ?_, ?_⟩
        · simp only [List.map_cons]
          exact congrArg (m :: ·) (ih _ _).1
        · rw [visitedIds_cons_mem _ _ _ hm]
          exact congrArg (_ :: ·) (ih _ _).2.1
        · intro i m' x hx hm'
          match i with
          | 0 =>
            rw [List.getElem?_cons_zero] at hx
            cases hx
            exact absurd hm hm'
          | i + 1 =>
            rw [List.getElem?_cons_succ] at hx ⊢
            exact (ih _ _).2.2 i m' x hx hm'
    · rw [pass2Doc, if_neg hm, visitedIds_cons_not m id rest hm]
      refine ⟨?_, ?_, ?_⟩
      · simp only [List.map_cons]
        exact congrArg (m :: ·) (ih _ _).1
      · rw [visitedIds_cons_not _ _ _ hm]
        exact (ih _ _).2.1
      · intro i m' x hx hm'
        match i with
        | 0 =>
          rw [List.getElem?_cons_zero] at hx ⊢
          exact hx
        | i + 1 =>
          rw [List.getElem?_cons_succ] at hx ⊢
          exact (ih _ _).2.2 i m' x hx hm'

/-- An OpenAPI 3 document with `GET /a {operationId: dup}` and
`TRACE /b {operationId: dup}`, in traversal order. -/
def c3CexDoc : List (Str × Str) :=
  [(("get".toList), ("dup".toList)), (("trace".toList), ("dup".toList))]

/-- C3 counterexample: the repair's method lists omit `trace`, so the
duplicated identifier on the `trace` operation is never visited — the
first pass sees `dup` only once, nothing is rewritten, and the extractor
the claim cites emits two operations sharing one identifier. The original
claim's pairwise distinctness fails. -/
theorem C3_counterexample :
    fixDuplicateOperationIds c3CexDoc = c3CexDoc ∧
    ¬ (extractedIds (fixDuplicateOperationIds c3CexDoc)).Nodup := by
  refine ⟨by decide, ?_⟩
  intro h
  exact absurd h (by decide)

/-- C3 (amended): the repair never changes a slot's method, never touches
a slot whose method is outside its seven-verb list (in particular `trace`
operations, which the cited extractor also emits), and on the slots it
does visit it behaves as claimed: the visited identifiers become pairwise
distinct, a first occurrence is kept unchanged, and each later occurrence
is rewritten to `<id>_<n>` with the least `n ≥ 2` that collides with no
existing or already-assigned identifier. -/
theorem C3_amended (doc : List (Str × Str)) (i : Nat) (m x : Str)
    (hop : doc[i]? = some (m, x)) :
    (fixDuplicateOperationIds doc).map Prod.fst = doc.map Prod.fst ∧
    (visitedIds (fixDuplicateOperationIds doc)).Nodup ∧
    (¬ m ∈ httpMethodsRepair → (fixDuplicateOperationIds doc)[i]? = some (m, x)) ∧
    ∀ j y, (visitedIds doc)[j]? = some y →
      (y ∉ (visitedIds doc).take j →
        (visitedIds (fixDuplicateOperationIds doc))[j]? = some y) ∧
      (y ∈ (visitedIds doc).take j → ∃ n, 2 ≤ n ∧
        (visitedIds (fixDuplicateOperationIds doc))[j]? = some (y ++ '_' :: decRepr n) ∧
        ∀ k, 2 ≤ k → k < n → ((y ++ '_' :: decRepr k) ∈ visitedIds doc ∨
          (y ++ '_' :: decRepr k) ∈ visitedIds (fixDuplicateOperationIds doc))) := by
  have hc := pass2Doc_eq (pass1Aux (visitedIds doc) [] []).2 doc
    (pass1Aux (visitedIds doc) [] []).1 []
  have hvfix : visitedIds (fixDuplicateOperationIds doc) =
      fixVisitedIds (visitedIds doc) := hc.2.1
  refine ⟨hc.1, ?_, ?_, ?_⟩
  · rw [hvfix]
    rcases hv : visitedIds doc with _ | ⟨y0, ys⟩
    · show (fixVisitedIds []).Nodup
      decide
    · exact (fixVisitedIds_spec (y0 :: ys) 0 y0 (by simp only [List.getElem?_cons_zero])).2.1
  · intro hm
    exact hc.2.2 i m x hop hm
  · intro j y hj
    have h := fixVisitedIds_spec (visitedIds doc) j y hj
    rw [hvfix]
    exact ⟨h.2.2.1, h.2.2.2⟩

/-- A document whose visited slots carry the base names `a, a` around an
untouched `trace` slot. -/
def c3WitDoc : List (Str × Str) :=
  [(("get".toList), ("a".toList)), (("trace".toList), ("b".toList)),
   (("get".toList), ("a".toList))]

/-- C3 witness: the amended repair theorem at a concrete document — the
`trace` slot keeps its identifier, the visited identifiers come out
pairwise distinct, and the second visited occurrence of `a` is rewritten
to a suffixed form. -/
theorem C3_witness :
    (fixDuplicateOperationIds c3WitDoc)[1]? =
      some ((("trace".toList), ("b".toList))) ∧
    (visitedIds (fixDuplicateOperationIds c3WitDoc)).Nodup ∧
    (∃ n, 2 ≤ n ∧ (visitedIds (fixDuplicateOperationIds c3WitDoc))[1]? =
      some (("a".toList) ++ '_' :: decRepr n)) := by
  have h := C3_amended c3WitDoc 1 ("trace".toList) ("b".toList) (by decide)
  refine ⟨h.2.2.1 (by decide), h.2.1, ?_⟩
  obtain ⟨n, hn, hout, _⟩ := (h.2.2.2 1 ("a".toList) (by decide)).2 (by decide)
  exact ⟨n, hn, hout⟩

/-! ## SchemaConverter: OpenAPI schema nodes compiled to runtime validators.
Validators are modelled as a deep embedding `V` with an acceptance
semantics; JSON values as `JVal` (JS `undefined` included for the proxy
model). Format and regex checks delegate to zod; their behaviour is
abstracted as oracle parameters of the acceptance function. -/

inductive JVal where
  | null
  | undef
  | bool (b : Bool)
  | num (n : Int)
  | str (s : Str)
  | arr (xs : List JVal)
  | obj (fields : List (Str × JVal))

/-- The string formats the converter maps to a zod checker: `email`,
`uri`/`url`, `uuid`, `date`/`date-time`. -/
inductive StrFormat where
  | email
  | url
  | uuid
  | datetime
deriving DecidableEq

inductive ObjPolicy where
  | strip
  | passthrough
  | strict
deriving DecidableEq

inductive V where
  | any
  | vnull
  | vboolean
  | vnumber (intOnly : Bool) (lo hi : Option (Int × Bool)) (mult : Option Int)
  | vstring (format : Option StrFormat) (minL maxL : Option Nat) (pat : Option Str)
  | venum (vals : List Str)
  | varray (item : V) (minI maxI : Option Nat) (uniq : Bool)
  | vobject (fields : List (Str × V × Bool)) (policy : ObjPolicy)
  | vintersection (a b : V)
  | vunion (ms : List V)

/-- The scalar (non-recursive) fields of a schema node; `none` models an
absent field. -/
structure SchScalar where
  ref : Option Str
  ty : Option Str
  format : Option Str
  enumVals : Option (List Str)
  minLength : Option Nat
  maxLength : Option Nat
  pattern : Option Str
  minimum : Option Int
  maximum : Option Int
  exclusiveMinimum : Bool
  exclusiveMaximum : Bool
  multipleOf : Option Int
  minItems : Option Nat
  maxItems : Option Nat
  uniqueItems : Bool
  required : Option (List Str)
  addBool : Option Bool

/-- A JSON-Schema-like node as consumed by `SchemaConverter.convert`. -/
inductive Sch where
  | mk (core : SchScalar) (allOf oneOf anyOf : Option (List Sch)) (items : Option Sch)
      (properties : Option (List (Str × Sch))) (addSchema : Option Sch)

def Sch.core : Sch → SchScalar
  | .mk c _ _ _ _ _ _ => c

def Sch.allOfF : Sch → Option (List Sch)
  | .mk _ l _ _ _ _ _ => l

def Sch.oneOfF : Sch → Option (List Sch)
  | .mk _ _ l _ _ _ _ => l

def Sch.anyOfF : Sch → Option (List Sch)
  | .mk _ _ _ l _ _ _ => l

def Sch.itemsF : Sch → Option Sch
  | .mk _ _ _ _ i _ _ => i

def Sch.propertiesF : Sch → Option (List (Str × Sch))
  | .mk _ _ _ _ _ p _ => p

def Sch.addSchemaF : Sch → Option Sch
  | .mk _ _ _ _ _ _ a => a

/-- The `$ref` token when it is JS-truthy (a nonempty string). -/
def Sch.refTok (s : Sch) : Option Str :=
  match s.core.ref with
  | some r => if r = [] then none else some r
  | none => none

/-- `SchemaConverter.convertString` without the trailing enum short-circuit:
the format switch recognises exactly six format names, then length bounds
and a (truthy, hence nonempty) pattern are attached. -/
def convertString (c : SchScalar) : V :=
  let fmt : Option StrFormat :=
    match c.format with
    | some f =>
      if f = ("email".toList) then some StrFormat.email
      else if f = ("uri".toList) then some StrFormat.url
      else if f = ("url".toList) then some StrFormat.url
      else if f = ("uuid".toList) then some StrFormat.uuid
      else if f = ("date".toList) then some StrFormat.datetime
      else if f = ("date-time".toList) then some StrFormat.datetime
      else none
    | none => none
  let pat : Option Str :=
    match c.pattern with
    | some p => if p = [] then none else some p
    | none => none
  V.vstring fmt c.minLength c.maxLength pat

/-- `SchemaConverter.convertNumber`: bounds are inclusive unless the
corresponding exclusive flag is truthy; `multipleOf` applies to numbers. -/
def convertNumber (c : SchScalar) : V :=
  V.vnumber false
    (c.minimum.map (fun m => (m, c.exclusiveMinimum)))
    (c.maximum.map (fun m => (m, c.exclusiveMaximum)))
    c.multipleOf

/-- `SchemaConverter.convertInteger`: like numbers but integer-only and
without `multipleOf`. -/
def convertInteger (c : SchScalar) : V :=
  V.vnumber true
    (c.minimum.map (fun m => (m, c.exclusiveMinimum)))
    (c.maximum.map (fun m => (m, c.exclusiveMaximum)))
    none

/-- `SchemaConverter.convertAllOf` after compiling the members: zero members
give the unconstrained validator, one member is returned unchanged, more are
folded into left-nested intersections (`Array.prototype.reduce`). -/
def foldAllOf : List V → V
  | [] => V.any
  | [z] => z
  | z :: zs => zs.foldl V.vintersection z

/-- `SchemaConverter.convertOneOf` (and `convertAnyOf`, which delegates to
it) after compiling the members: zero members give the unconstrained
validator, one member is returned unchanged, more form a union. -/
def foldOneOf : List V → V
  | [] => V.any
  | [z] => z
  | zs => V.vunion zs

/-- `SchemaConverter.convert`. The fuel argument bounds the recursion depth
(the TS recursion has no such bound; any fuel larger than the schema's
reference-chain depth gives the stable result) and only the `$ref`
resolution path re-enters through the registry. -/
def convert (refs : List (Str × Sch)) : Nat → Sch → V
  | 0, _ => V.any
  | fuel + 1, s =>
    match s.refTok with
    | some r =>
      match mapGet refs r with
      | some resolved => convert refs fuel resolved
      | none => V.any
    | none =>
      match s.allOfF with
      | some l => foldAllOf (l.map (convert refs fuel))
      | none =>
        match s.oneOfF with
        | some l => foldOneOf (l.map (convert refs fuel))
        | none =>
          match s.anyOfF with
          | some l => foldOneOf (l.map (convert refs fuel))
          | none =>
            if s.core.ty == some ("string".toList) then
              match s.core.enumVals with
              | some vals => V.venum vals
              | none => convertString s.core
            else if s.core.ty == some ("number".toList) then convertNumber s.core
            else if s.core.ty == some ("integer".toList) then convertInteger s.core
            else if s.core.ty == some ("boolean".toList) then V.vboolean
            else if s.core.ty == some ("array".toList) then
              V.varray
                (match s.itemsF with
                 | some it => convert refs fuel it
                 | none => V.any)
                s.core.minItems s.core.maxItems s.core.uniqueItems
            else if s.core.ty == some ("object".toList) then
              V.vobject
                ((s.propertiesF.getD []).map (fun p =>
                  (p.1, convert refs fuel p.2, !((s.core.required.getD []).contains p.1))))
                (if s.core.addBool == some true then ObjPolicy.passthrough
                 else if s.core.addBool == some false then ObjPolicy.strict
                 else match s.addSchemaF with
                   | some _ => ObjPolicy.passthrough
                   | none => ObjPolicy.strip)
            else if s.core.ty == some ("null".toList) then V.vnull
            else
              match s.propertiesF with
              | some props =>
                V.vobject
                  (props.map (fun p =>
                    (p.1, convert refs fuel p.2, !((s.core.required.getD []).contains p.1))))
                  (if s.core.addBool == some true then ObjPolicy.passthrough
                   else if s.core.addBool == some false then ObjPolicy.strict
                   else match s.addSchemaF with
                     | some _ => ObjPolicy.passthrough
                     | none => ObjPolicy.strip)
              | none => V.any

/-- JS `Set` membership equality (SameValueZero) on JSON-parsed values:
primitives compare by value; freshly parsed objects and arrays are distinct
references, so they never compare equal. -/
def sameValueZero : JVal → JVal → Bool
  | JVal.null, JVal.null => true
  | JVal.undef, JVal.undef => true
  | JVal.bool a, JVal.bool b => a == b
  | JVal.num a, JVal.num b => a == b
  | JVal.str a, JVal.str b => a == b
  | _, _ => false

/-- `new Set(items).size === items.length`. -/
def noDupSVZ : List JVal → Bool
  | [] => true
  | x :: xs => !(xs.any (sameValueZero x)) && noDupSVZ xs

mutual
/-- Acceptance semantics of a compiled validator. `fmtOk` and `reOk` are
oracles for zod's format checkers and regex engine respectively; every
result below holds for arbitrary oracles. `strip` and `passthrough` object
policies differ only in output shape, not in acceptance, so only `strict`
restricts unknown keys. -/
def accepts (fmtOk : StrFormat → Str → Bool) (reOk : Str → Str → Bool) : V → JVal → Bool
  | V.any, _ => true
  | V.vnull, JVal.null => true
  | V.vnull, _ => false
  | V.vboolean, JVal.bool _ => true
  | V.vboolean, _ => false
  | V.vnumber _ lo hi mult, JVal.num n =>
      (match lo with
       | none => true
       | some lb => if lb.2 then decide (lb.1 < n) else decide (lb.1 ≤ n)) &&
      (match hi with
       | none => true
       | some ub => if ub.2 then decide (n < ub.1) else decide (n ≤ ub.1)) &&
      (match mult with
       | none => true
       | some k => n % k == 0)
  | V.vnumber _ _ _ _, _ => false
  | V.vstring fmt mn mx pat, JVal.str s =>
      (match fmt with
       | none => true
       | some f => fmtOk f s) &&
      (match mn with
       | none => true
       | some m => decide (m ≤ s.length)) &&
      (match mx with
       | none => true
       | some m => decide (s.length ≤ m)) &&
      (match pat with
       | none => true
       | some p => reOk p s)
  | V.vstring _ _ _ _, _ => false
  | V.venum vals, JVal.str s => vals.contains s
  | V.venum _, _ => false
  | V.varray item mn mx uniq, JVal.arr xs =>
      xs.all (accepts fmtOk reOk item) &&
      (match mn with
       | none => true
       | some m => decide (m ≤ xs.length)) &&
      (match mx with
       | none => true
       | some m => decide (xs.length ≤ m)) &&
      (!uniq || noDupSVZ xs)
  | V.varray _ _ _ _, _ => false
  | V.vobject fields policy, JVal.obj kvs =>
      acceptsFields fmtOk reOk fields kvs &&
      (if policy = ObjPolicy.strict then
        kvs.all (fun kv => fields.any (fun f => f.1 == kv.1))
      else true)
  | V.vobject _ _, _ => false
  | V.vintersection a b, v => accepts fmtOk reOk a v && accepts fmtOk reOk b v
  | V.vunion ms, v => acceptsAny fmtOk reOk ms v

/-- Field-wise object check: a declared property validates its value when
present and must be optional when absent. -/
def acceptsFields (fmtOk : StrFormat → Str → Bool) (reOk : Str → Str → Bool) :
    List (Str × V × Bool) → List (Str × JVal) → Bool
  | [], _ => true
  | f :: fs, kvs =>
      (match mapGet kvs f.1 with
       | some v => accepts fmtOk reOk f.2.1 v
       | none => f.2.2) &&
      acceptsFields fmtOk reOk fs kvs

/-- Union check: some member accepts. -/
def acceptsAny (fmtOk : StrFormat → Str → Bool) (reOk : Str → Str → Bool) :
    List V → JVal → Bool
  | [], _ => false
  | m :: ms, v => accepts fmtOk reOk m v || acceptsAny fmtOk reOk ms v
end

/-- A schema node with every field absent. -/
def coreEmpty : SchScalar :=
  ⟨none, none, none, none, none, none, none, none, none, false, false, none,
   none, none, false, none, none⟩

/-- A bare `allOf` node. -/
def schAllOf (l : List Sch) : Sch := Sch.mk coreEmpty (some l) none none none none none

/-- A bare `oneOf` node. -/
def schOneOf (l : List Sch) : Sch := Sch.mk coreEmpty none (some l) none none none none

/-- A bare `anyOf` node. -/
def schAnyOf (l : List Sch) : Sch := Sch.mk coreEmpty none none (some l) none none none

/-- A bare `$ref` node. -/
def schRef (r : Str) : Sch :=
  Sch.mk ⟨some r, none, none, none, none, none, none, none, none, false, false,
    none, none, none, false, none, none⟩ none none none none none none

/-- C8: an `allOf` of two members accepts exactly when both compiled members
accept; a `oneOf` (and `anyOf`, folded the same way) of two members accepts
exactly when either compiled member accepts; for all three combinators an
empty member list compiles to the unconstrained validator and a singleton
compiles to the member itself. The oracles for zod's format and regex checks
are arbitrary. -/
theorem C8_combinator_laws (refs : List (Str × Sch)) (fuel : Nat) (A B : Sch)
    (fmtOk : StrFormat → Str → Bool) (reOk : Str → Str → Bool) (v : JVal) :
    (accepts fmtOk reOk (convert refs (fuel + 1) (schAllOf [A, B])) v =
      (accepts fmtOk reOk (convert refs fuel A) v &&
       accepts fmtOk reOk (convert refs fuel B) v)) ∧
    (accepts fmtOk reOk (convert refs (fuel + 1) (schOneOf [A, B])) v =
      (accepts fmtOk reOk (convert refs fuel A) v ||
       accepts fmtOk reOk (convert refs fuel B) v)) ∧
    (accepts fmtOk reOk (convert refs (fuel + 1) (schAnyOf [A, B])) v =
      (accepts fmtOk reOk (convert refs fuel A) v ||
       accepts fmtOk reOk (convert refs fuel B) v)) ∧
    (convert refs (fuel + 1) (schAllOf []) = V.any) ∧
    (convert refs (fuel + 1) (schOneOf []) = V.any) ∧
    (convert refs (fuel + 1) (schAnyOf []) = V.any) ∧
    (convert refs (fuel + 1) (schAllOf [A]) = convert refs fuel A) ∧
    (convert refs (fuel + 1) (schOneOf [A]) = convert refs fuel A) ∧
    (convert refs (fuel + 1) (schAnyOf [A]) = convert refs fuel A) := by
  refine ⟨?_, ?_, ?_, rfl, rfl, rfl, rfl, rfl, rfl⟩
  · show accepts fmtOk reOk (V.vintersection (convert refs fuel A) (convert refs fuel B)) v = _
    rw [accepts]
  · show accepts fmtOk reOk (V.vunion [convert refs fuel A, convert refs fuel B]) v = _
    rw [accepts, acceptsAny, acceptsAny, acceptsAny]
    simp
  · show accepts fmtOk reOk (V.vunion [convert refs fuel A, convert refs fuel B]) v = _
    rw [accepts, acceptsAny, acceptsAny, acceptsAny]
    simp

/-- The `SchemaConverter` constructor: each entry of the `definitions` map it
is handed is registered under both the legacy and the current reference
location conventions. -/
def mkRefs (definitions : List (Str × Sch)) : List (Str × Sch) :=
  definitions.foldl (fun m p =>
    mapSet (mapSet m (("#/definitions/".toList) ++ p.1) p.2)
      (("#/components/schemas/".toList) ++ p.1) p.2) []

/-- The slice of an OpenAPI 3 `components` object relevant to registry
construction. -/
structure ComponentsLite where
  schemas : List (Str × Sch)
  securitySchemes : List (Str × Sch)

/-- `OpenApi3Parser.extractSecuritySchemes`: the parsed document's
`securitySchemes` field is `components.securitySchemes`. -/
def extractSecuritySchemes (c : ComponentsLite) : List (Str × Sch) :=
  c.securitySchemes

/-- The registry the server actually builds: `generateTools` passes
`swaggerDoc.securitySchemes` — not the document's schema definitions — as
the `definitions` argument of `new ToolGenerator(definitions)`, which hands
it to the `SchemaConverter` constructor. -/
def generateToolsRegistry (c : ComponentsLite) : List (Str × Sch) :=
  mkRefs (extractSecuritySchemes c)

/-- A document with one named component schema `Pet` (a string schema) and
no security schemes. -/
def c7Doc : ComponentsLite :=
  ⟨[(("Pet".toList), Sch.mk ⟨none, some ("string".toList), none, none, none, none,
    none, none, none, false, false, none, none, none, false, none, none⟩
    none none none none none none)], []⟩

/-- A reference to the `Pet` component under the current location
convention. -/
def c7Ref : Sch := schRef ("#/components/schemas/Pet".toList)

/-- C7: the compiler's registry is built from whatever map it is handed —
but the server hands it the document's security schemes, not its named
component definitions. On `c7Doc` the reference `#/components/schemas/Pet`
dangles in the registry the server builds, so the compiled validator is
unconstrained and accepts the number 42 (a warning, never fatal), whereas
the registry built from the document's named component definitions — what
the claim describes — resolves `Pet` and rejects 42. -/
theorem C7_registry_mismatch :
    (∀ (v : JVal) (fmtOk : StrFormat → Str → Bool) (reOk : Str → Str → Bool),
      accepts fmtOk reOk (convert (generateToolsRegistry c7Doc) 10 c7Ref) v = true) ∧
    accepts (fun _ _ => false) (fun _ _ => false)
      (convert (mkRefs c7Doc.schemas) 10 c7Ref) (JVal.num 42) = false := by
  constructor
  · intro v fmtOk reOk
    rfl
  · rfl

/-! ## ApiProxy: request construction from validated input -/

inductive ParamLoc where
  | path
  | query
  | header
  | cookie
deriving DecidableEq

structure ParamDef where
  name : Str
  loc : ParamLoc
  required : Bool

/-- The slice of an `ApiOperation` the request builder reads. -/
structure OperationReq where
  method : Str
  path : Str
  parameters : List ParamDef
  hasRequestBody : Bool

/-- An axios request config as assembled by `buildRequestConfig`. -/
structure RequestConfig where
  method : Str
  url : Str
  queryParams : List (Str × JVal)
  headers : List (Str × JVal)
  data : Option JVal

def JVal.isUndef : JVal → Bool
  | JVal.undef => true
  | _ => false

mutual
/-- JS string coercion `String(value)` as applied to template-interpolated
parameter values. -/
def jsToString : JVal → Str
  | JVal.str s => s
  | JVal.num n => if n < 0 then '-' :: decRepr (-n).toNat else decRepr n.toNat
  | JVal.bool b => if b then ("true".toList) else ("false".toList)
  | JVal.null => ("null".toList)
  | JVal.undef => ("undefined".toList)
  | JVal.arr xs => jsToStringList xs
  | JVal.obj _ => ("[object Object]".toList)

def jsToStringList : List JVal → Str
  | [] => []
  | [x] => jsToString x
  | x :: y :: rest => jsToString x ++ ',' :: jsToStringList (y :: rest)
end

/-- The characters `encodeURIComponent` leaves unescaped. -/
def isUnreserved (c : Char) : Bool :=
  c.isAlphanum || c ∈ ['-', '_', '.', '!', '~', '*', Char.ofNat 39, '(', ')']

def hexDigit (n : Nat) : Char :=
  if n < 10 then Nat.digitChar n else Char.ofNat (55 + n)

def percentByte (b : Nat) : Str := ['%', hexDigit (b / 16), hexDigit (b % 16)]

/-- UTF-8 encoding of one code point. -/
def utf8Bytes (n : Nat) : List Nat :=
  if n < 128 then [n]
  else if n < 2048 then [192 + n / 64, 128 + n % 64]
  else if n < 65536 then [224 + n / 4096, 128 + (n / 64) % 64, 128 + n % 64]
  else [240 + n / 262144, 128 + (n / 4096) % 64, 128 + (n / 64) % 64, 128 + n % 64]

def encodeURIComponent (s : Str) : Str :=
  s.foldr (fun c acc =>
    (if isUnreserved c then [c] else ((utf8Bytes c.toNat).map percentByte).join) ++ acc) []

/-- JS `String.prototype.replace` with a plain string pattern: only the
first occurrence is replaced (parameter values never contain dollar
patterns). -/
def replaceFirst : Str → Str → Str → Str
  | [], pat, repl => if pat = [] then repl else []
  | c :: rest, pat, repl =>
    if pat.isPrefixOf (c :: rest) then repl ++ (c :: rest).drop pat.length
    else c :: replaceFirst rest pat repl

def mapDelete {α : Type} (m : List (Str × α)) (k : Str) : List (Str × α) :=
  m.filter (fun p => !(p.1 == k))

/-- The authentication configuration; empty strings model absent (falsy)
values. -/
structure AuthCfg where
  ty : Str
  token : Str
  header : Str
  apiKeyHeader : Str

/-- One base64 output character. -/
def b64Char (n : Nat) : Char :=
  (("ABCDEFGHIJKLMNOPQRSTUVWXYZabcdefghijklmnopqrstuvwxyz0123456789+/".toList)).getD n '?'

def b64EncodeBytes : List Nat → Str
  | [] => []
  | [a] => [b64Char (a / 4), b64Char ((a % 4) * 16), '=', '=']
  | [a, b] => [b64Char (a / 4), b64Char ((a % 4) * 16 + b / 16), b64Char ((b % 16) * 4), '=']
  | a :: b :: c :: rest =>
    [b64Char (a / 4), b64Char ((a % 4) * 16 + b / 16), b64Char ((b % 16) * 4 + c / 64),
     b64Char (c % 64)] ++ b64EncodeBytes rest

/-- `Buffer.from(token).toString('base64')`. -/
def b64Encode (s : Str) : Str :=
  b64EncodeBytes ((s.map (fun c => utf8Bytes c.toNat)).join)

/-- `AuthManager.applyAuth`: `none` is a no-op, `bearer`/`apikey`/`basic`
set one header when their token (and header name, for apikey) is truthy,
and unknown types are warned and leave the request unchanged. -/
def applyAuth (a : AuthCfg) (cfg : RequestConfig) : RequestConfig :=
  if a.ty = ("none".toList) then cfg
  else if a.ty = ("bearer".toList) then
    (if a.token ≠ [] then
      { cfg with headers := (mapSet cfg.headers a.header (JVal.str (("Bearer ".toList) ++ a.token))) }
    else cfg)
  else if a.ty = ("apikey".toList) then
    (if a.token ≠ [] ∧ a.apiKeyHeader ≠ [] then
      { cfg with headers := mapSet cfg.headers a.apiKeyHeader (JVal.str a.token) }
    else cfg)
  else if a.ty = ("basic".toList) then
    (if a.token ≠ [] then
      { cfg with headers := (mapSet cfg.headers a.header (JVal.str (("Basic ".toList) ++ b64Encode a.token))) }
    else cfg)
  else cfg

/-- The parameter loop of `buildRequestConfig`: undefined optional values
are skipped, path values are substituted percent-encoded into the first
occurrence of their placeholder, query and header values are stored, and
cookie parameters are diagnosed but not applied. -/
def applyParams (params : List (Str × JVal)) : List ParamDef → RequestConfig → RequestConfig
  | [], cfg => cfg
  | p :: ps, cfg =>
    let value := (mapGet params p.name).getD JVal.undef
    if value.isUndef && !p.required then applyParams params ps cfg
    else
      applyParams params ps
        (match p.loc with
         | ParamLoc.path =>
           { cfg with url := (replaceFirst cfg.url ('{' :: p.name ++ ['}']) (encodeURIComponent (jsToString value))) }
         | ParamLoc.query => { cfg with queryParams := mapSet cfg.queryParams p.name value }
         | ParamLoc.header => { cfg with headers := mapSet cfg.headers p.name value }
         | ParamLoc.cookie => cfg)

/-- The body fold of `buildRequestConfig`: every validated entry not claimed
by a declared path/query/header/cookie parameter and not undefined. -/
def bodyFold (op : OperationReq) (params : List (Str × JVal)) : List (Str × JVal) :=
  params.filter (fun kv =>
    !(op.parameters.any (fun p => p.name == kv.1 &&
        decide (p.loc ∈ [ParamLoc.path, ParamLoc.query, ParamLoc.header, ParamLoc.cookie]))) &&
    !kv.2.isUndef)

/-- The initial request config: lower-cased method, raw path template,
empty query and header maps, no body. -/
def initialConfig (op : OperationReq) : RequestConfig :=
  ⟨strLower op.method, op.path, [], [], none⟩

/-- The JSONP accommodation: a declared `callback` query parameter widens
the `Accept` header. -/
def jsonpStep (op : OperationReq) (cfg : RequestConfig) : RequestConfig :=
  if op.parameters.any (fun p =>
      p.name == ("callback".toList) && decide (p.loc = ParamLoc.query)) then
    { cfg with headers := (mapSet cfg.headers ("Accept".toList) (JVal.str ("application/javascript, application/json, */*".toList))) }
  else cfg

/-- The content-type rule: GET requests never carry a `Content-Type`
header; other methods default it to JSON when unset. -/
def contentTypeStep (cfg : RequestConfig) : RequestConfig :=
  if cfg.method = ("get".toList) then
    { cfg with headers := mapDelete cfg.headers ("Content-Type".toList) }
  else if (mapGet cfg.headers ("Content-Type".toList)).isNone then
    { cfg with headers := (mapSet cfg.headers ("Content-Type".toList) (JVal.str ("application/json".toList))) }
  else cfg

/-- The body block: a defined synthetic `body` entry is used verbatim as the
raw body; otherwise the unclaimed defined entries are folded into a body
object when there are any. -/
def bodyStep (op : OperationReq) (params : List (Str × JVal)) (cfg : RequestConfig) :
    RequestConfig :=
  if op.hasRequestBody then
    (if !((mapGet params ("body".toList)).getD JVal.undef).isUndef then
      { cfg with data := mapGet params ("body".toList) }
    else if 0 < (bodyFold op params).length then
      { cfg with data := some (JVal.obj (bodyFold op params)) }
    else cfg)
  else cfg

/-- `ApiProxy.buildRequestConfig`: the stages in source order, with
authentication applied last. -/
def buildRequestConfig (auth : AuthCfg) (op : OperationReq)
    (params : List (Str × JVal)) : RequestConfig :=
  applyAuth auth
    (bodyStep op params
      (applyParams params op.parameters
        (contentTypeStep (jsonpStep op (initialConfig op)))))

theorem applyAuth_data (a : AuthCfg) (cfg : RequestConfig) :
    (applyAuth a cfg).data = cfg.data := by
  unfold applyAuth
  repeat' split
  all_goals rfl

theorem applyAuth_url (a : AuthCfg) (cfg : RequestConfig) :
    (applyAuth a cfg).url = cfg.url := by
  unfold applyAuth
  repeat' split
  all_goals rfl

theorem bodyStep_url (op : OperationReq) (params : List (Str × JVal)) (cfg : RequestConfig) :
    (bodyStep op params cfg).url = cfg.url := by
  unfold bodyStep
  repeat' split
  all_goals rfl

theorem contentTypeStep_url (cfg : RequestConfig) : (contentTypeStep cfg).url = cfg.url := by
  unfold contentTypeStep
  repeat' split
  all_goals rfl

theorem contentTypeStep_data (cfg : RequestConfig) : (contentTypeStep cfg).data = cfg.data := by
  unfold contentTypeStep
  repeat' split
  all_goals rfl

theorem jsonpStep_url (op : OperationReq) (cfg : RequestConfig) :
    (jsonpStep op cfg).url = cfg.url := by
  unfold jsonpStep
  split
  all_goals rfl

theorem jsonpStep_data (op : OperationReq) (cfg : RequestConfig) :
    (jsonpStep op cfg).data = cfg.data := by
  unfold jsonpStep
  split
  all_goals rfl

theorem applyParams_data (params : List (Str × JVal)) :
    ∀ (ps : List ParamDef) (cfg : RequestConfig),
      (applyParams params ps cfg).data = cfg.data := by
  intro ps
  induction ps with
  | nil =>
    intro cfg
    rfl
  | cons p ps ih =>
    intro cfg
    rw [applyParams]
    by_cases h : (((mapGet params p.name).getD JVal.undef).isUndef && !p.required) = true
    · rw [if_pos h]
      exact ih cfg
    · rw [if_neg h, ih]
      cases p.loc <;> rfl

/-- C6: for an operation with a request body, a defined synthetic `body`
entry is used verbatim as the raw request body; otherwise the body object
holds exactly the validated entries not claimed by any declared parameter
(every declared parameter location counts as claiming), and a declared
required path parameter is substituted percent-encoded into its placeholder
in the path template. -/
theorem C6_request_build (auth : AuthCfg) (op : OperationReq)
    (params : List (Str × JVal)) (hbody : op.hasRequestBody = true) :
    (∀ b, mapGet params ("body".toList) = some b → b.isUndef = false →
      (buildRequestConfig auth op params).data = some b) ∧
    (mapGet params ("body".toList) = none →
      ((bodyFold op params = [] → (buildRequestConfig auth op params).data = none) ∧
       (bodyFold op params ≠ [] →
         (buildRequestConfig auth op params).data = some (JVal.obj (bodyFold op params))) ∧
       (∀ k v, (k, v) ∈ bodyFold op params ↔
         ((k, v) ∈ params ∧ (∀ p ∈ op.parameters, p.name ≠ k) ∧ v.isUndef = false)))) ∧
    (∀ nm v, op.parameters = [⟨nm, ParamLoc.path, true⟩] →
      mapGet params nm = some v →
      (buildRequestConfig auth op params).url =
        replaceFirst op.path ('{' :: nm ++ ['}']) (encodeURIComponent (jsToString v))) := by
  refine ⟨?_, ?_, ?_⟩
  · intro b hb hbu
    unfold buildRequestConfig
    rw [applyAuth_data]
    unfold bodyStep
    rw [if_pos hbody, hb]
    simp only [Option.getD_some, hbu]
    rfl
  · intro hnone
    have hgd : ((mapGet params ("body".toList)).getD JVal.undef).isUndef = true := by
      rw [hnone]
      rfl
    refine ⟨?_, ?_, ?_⟩
    · intro hempty
      unfold buildRequestConfig
      rw [applyAuth_data]
      unfold bodyStep
      rw [if_pos hbody, hgd]
      simp only [Bool.not_true, Bool.false_eq_true, if_false, ite_false, hempty,
        List.length_nil, lt_irrefl, if_false]
      rw [applyParams_data, contentTypeStep_data, jsonpStep_data]
      rfl
    · intro hne
      unfold buildRequestConfig
      rw [applyAuth_data]
      unfold bodyStep
      rw [if_pos hbody, hgd]
      have hlen : 0 < (bodyFold op params).length := List.length_pos.mpr hne
      simp only [Bool.not_true, Bool.false_eq_true, if_false, ite_false]
      rw [if_pos hlen]
    · intro k v
      have hloc : ∀ p : ParamDef,
          decide (p.loc ∈ [ParamLoc.path, ParamLoc.query, ParamLoc.header,
            ParamLoc.cookie]) = true := by
        intro p
        cases hl : p.loc <;> rfl
      constructor
      · intro hmem
        rw [bodyFold, List.mem_filter] at hmem
        obtain ⟨hp, hcond⟩ := hmem
        simp only [Bool.and_eq_true] at hcond
        obtain ⟨hnoclaim, hdef⟩ := hcond
        have hany : op.parameters.any (fun q => q.name == (k, v).1 &&
            decide (q.loc ∈ [ParamLoc.path, ParamLoc.query, ParamLoc.header,
              ParamLoc.cookie])) = false := by
          rcases hb : op.parameters.any (fun q => q.name == (k, v).1 &&
              decide (q.loc ∈ [ParamLoc.path, ParamLoc.query, ParamLoc.header,
                ParamLoc.cookie])) with _ | _
          · rfl
          · rw [hb] at hnoclaim
            cases hnoclaim
        refine ⟨hp, ?_, ?_⟩
        · intro q hqin hname
          have hq := List.any_eq_false.mp hany q hqin
          apply hq
          rw [Bool.and_eq_true]
          exact ⟨beq_iff_eq.mpr hname, hloc q⟩
        · rcases hu : v.isUndef with _ | _
          · rfl
          · rw [hu] at hdef
            simp at hdef
      · rintro ⟨hp, hnoclaim, hdef⟩
        rw [bodyFold, List.mem_filter]
        refine ⟨hp, ?_⟩
        have hany : op.parameters.any (fun q => q.name == (k, v).1 &&
            decide (q.loc ∈ [ParamLoc.path, ParamLoc.query, ParamLoc.header,
              ParamLoc.cookie])) = false := by
          apply List.any_eq_false.mpr
          intro q hqin hfq
          rw [Bool.and_eq_true] at hfq
          exact hnoclaim q hqin (beq_iff_eq.mp hfq.1)
        simp only [Bool.and_eq_true, hany, Bool.not_false, hdef]
        exact ⟨trivial, trivial⟩
  · intro nm v hps hv
    unfold buildRequestConfig
    rw [applyAuth_url, bodyStep_url, hps]
    rw [applyParams, hv]
    simp only [Option.getD_some, Bool.not_true, Bool.and_false]
    rw [if_neg (by simp)]
    rw [applyParams]
    simp only
    rw [contentTypeStep_url, jsonpStep_url]
    rfl

/-- The `POST /users/{id}` operation from the specification's end-to-end
request-build example. -/
def c6Op : OperationReq :=
  ⟨("POST".toList), ("/users/{id}".toList), [⟨("id".toList), ParamLoc.path, true⟩], true⟩

/-- The validated input `{id: 42, name: "a"}`. -/
def c6Params : List (Str × JVal) :=
  [(("id".toList), JVal.num 42), (("name".toList), JVal.str ("a".toList))]

/-- No authentication configured. -/
def c6Auth : AuthCfg := ⟨("none".toList), [], [], []⟩

/-- C6 witness: the request-build theorem at the concrete example produces
`POST /users/42` with body `{"name":"a"}` and no `id` key in the body. -/
theorem C6_witness :
    (buildRequestConfig c6Auth c6Op c6Params).url = ("/users/42".toList) ∧
    (buildRequestConfig c6Auth c6Op c6Params).data =
      some (JVal.obj [(("name".toList), JVal.str ("a".toList))]) ∧
    (buildRequestConfig c6Auth c6Op c6Params).method = ("post".toList) := by
  have h := C6_request_build c6Auth c6Op c6Params rfl
  refine ⟨?_, ?_, rfl⟩
  · have hu := h.2.2 ("id".toList) (JVal.num 42) rfl rfl
    rw [hu]
    rfl
  · have hb : bodyFold c6Op c6Params = [(("name".toList), JVal.str ("a".toList))] := rfl
    have hd := (h.2.1 rfl).2.1 (by rw [hb]; simp)
    rw [hd, hb]

/-! ## The tool-invocation boundary: `executeTool` and the proxy's failure
classification. Exceptions are modelled as `Except.error`; the zod parse,
the HTTP dispatch, the response decoding and `JSON.stringify` are external
collaborators modelled as function parameters. -/

/-- What came back from (or happened to) the axios dispatch. -/
inductive AxiosOutcome where
  | success (body : JVal)
  | errorStatus (status : Nat) (body : Str)
  | noResponse (msg : Str)
  | setupFailure (msg : Str)
  | nonAxios (msg : Str)

/-- `ApiProxy.handleError`: every failure class is rethrown as an `Error`
whose message carries the method, the path and the diagnostic detail. -/
def handleError (method path : Str) : AxiosOutcome → Str
  | AxiosOutcome.success _ => []
  | AxiosOutcome.errorStatus status body =>
    ("API request failed: ".toList) ++ method ++ ' ' :: path ++
      (" returned ".toList) ++ decRepr status ++ (". Response: ".toList) ++ body
  | AxiosOutcome.noResponse msg =>
    ("API request failed: ".toList) ++ method ++ ' ' :: path ++
      (" - No response received. Error: ".toList) ++ msg
  | AxiosOutcome.setupFailure msg =>
    ("API request setup failed: ".toList) ++ method ++ ' ' :: path ++
      (". Error: ".toList) ++ msg
  | AxiosOutcome.nonAxios msg =>
    ("Unexpected error during API request: ".toList) ++ method ++ ' ' :: path ++
      (". Error: ".toList) ++ msg

/-- `ApiProxy.execute`: a successful response is decoded by
`handleResponse` (which never throws: its internal JSONP parse failure
returns the raw text); every caught failure is rethrown with a classified
message. -/
def proxyExecute (method path : Str) (handleResp : JVal → JVal)
    (outcome : AxiosOutcome) : Except Str JVal :=
  match outcome with
  | AxiosOutcome.success body => Except.ok (handleResp body)
  | e => Except.error (handleError method path e)

/-- The payload shape returned to the MCP boundary. -/
structure McpPayload where
  text : Str
  isError : Bool

/-- The `catch`-block shape of `executeTool`: a thrown execution error
becomes an error-flagged payload, a result is serialized. -/
def toolResultOf (ser : JVal → Str) : Except Str JVal → McpPayload
  | Except.error e => ⟨("Error: ".toList) ++ e, true⟩
  | Except.ok r => ⟨ser r, false⟩

/-- `SwaggerMcpServer.executeTool`: the missing-proxy guard throws outside
the `try`; inside it, validation and execution failures are caught and
returned as an error-flagged payload, success is returned as the
JSON-serialized result. -/
def executeTool (proxy : Option Unit) (ser : JVal → Str)
    (validated : Except Str (List (Str × JVal)))
    (runOp : List (Str × JVal) → Except Str JVal) : Except Str McpPayload :=
  match proxy with
  | none => Except.error ("API proxy not initialized".toList)
  | some _ =>
    Except.ok
      (match validated with
       | Except.error e => ⟨("Error: ".toList) ++ e, true⟩
       | Except.ok ps => toolResultOf ser (runOp ps))

/-- C5: once a tool is registered (so the proxy exists), the invocation
handler always returns a payload — either the serialized result of a
successful validation and execution, or an error-flagged payload — and no
validation, request-construction, transport or error-status failure
escapes as an exception. The dispatch outcome and the external
collaborators are arbitrary. -/
theorem C5_invocation_boundary (ser : JVal → Str) (method path : Str)
    (handleResp : JVal → JVal)
    (validated : Except Str (List (Str × JVal)))
    (dispatch : List (Str × JVal) → AxiosOutcome) :
    ∃ payload,
      executeTool (some ()) ser validated
        (fun ps => proxyExecute method path handleResp (dispatch ps)) =
          Except.ok payload ∧
      ((∃ ps body, validated = Except.ok ps ∧ dispatch ps = AxiosOutcome.success body ∧
        payload = ⟨ser (handleResp body), false⟩) ∨
       (payload.isError = true ∧ ∃ msg, payload.text = ("Error: ".toList) ++ msg)) := by
  rcases validated with e | ps
  · exact ⟨⟨("Error: ".toList) ++ e, true⟩, rfl, Or.inr ⟨rfl, e, rfl⟩⟩
  · have hred : ∀ (run : List (Str × JVal) → Except Str JVal),
        executeTool (some ()) ser (Except.ok ps) run =
          Except.ok (toolResultOf ser (run ps)) := fun _ => rfl
    rcases hd : dispatch ps with body | ⟨st, b⟩ | m | m | m
    · exact ⟨⟨ser (handleResp body), false⟩, by simp only [hred]; rw [hd]; rfl,
        Or.inl ⟨ps, body, rfl, hd, rfl⟩⟩
    · exact ⟨⟨("Error: ".toList) ++ handleError method path (AxiosOutcome.errorStatus st b),
        true⟩, by simp only [hred]; rw [hd]; rfl,
        Or.inr ⟨rfl, handleError method path (AxiosOutcome.errorStatus st b), rfl⟩⟩
    · exact ⟨⟨("Error: ".toList) ++ handleError method path (AxiosOutcome.noResponse m),
        true⟩, by simp only [hred]; rw [hd]; rfl,
        Or.inr ⟨rfl, handleError method path (AxiosOutcome.noResponse m), rfl⟩⟩
    · exact ⟨⟨("Error: ".toList) ++ handleError method path (AxiosOutcome.setupFailure m),
        true⟩, by simp only [hred]; rw [hd]; rfl,
        Or.inr ⟨rfl, handleError method path (AxiosOutcome.setupFailure m), rfl⟩⟩
    · exact ⟨⟨("Error: ".toList) ++ handleError method path (AxiosOutcome.nonAxios m),
        true⟩, by simp only [hred]; rw [hd]; rfl,
        Or.inr ⟨rfl, handleError method path (AxiosOutcome.nonAxios m), rfl⟩⟩

/-! ## SwaggerMcpServer.loadSwaggerDocument: reload failure isolation -/

/-- The parsed document produced by `Parser.create(dereferenced).parse()`,
restricted to the fields the server publishes and reads. -/
structure ParsedDoc where
  title : Str
  version : Str
  baseUrl : Str
  operations : List OperationLite
  securitySchemes : List (Str × Sch)

/-- The published server state touched by `loadSwaggerDocument`:
`this.tools`, `this.swaggerDoc`, and `this.apiProxy` (identified by the
base URL it was constructed with). -/
structure ServerState where
  tools : List (Str × Nat)
  swaggerDoc : Option ParsedDoc
  apiProxy : Option Str

/-- Which document source is configured (`appConfig.swagger.url` truthy,
else `appConfig.swagger.path` truthy, else neither). -/
inductive SwaggerSource
  | url
  | file
  | unconfigured

/-- The `document` acquisition branch of `loadSwaggerDocument`: fetch from
the URL, read and JSON-parse the file, or throw when no source is
configured. The outcomes of `axios.get` and of `fs.readFile` +
`JSON.parse` are the parameters `fetched` and `readRes`. -/
def swaggerDocSource {δ : Type} (source : SwaggerSource)
    (fetched readRes : Except Str δ) : Except Str δ :=
  match source with
  | SwaggerSource.url => fetched
  | SwaggerSource.file => readRes
  | SwaggerSource.unconfigured =>
      Except.error ("No Swagger document source configured".toList)

/-- The throwing prefix of `loadSwaggerDocument`, everything up to and
including `parser.parse()`: acquire the document, repair it in place with
`fixDuplicateOperationIds` and `fixHostFieldFormat` (these mutate the
local `document`, not the published state), validate and dereference it
with `SwaggerParser`, and parse it. The outcomes of the awaited
`SwaggerParser` calls are the parameters `validate` and `deref`; the raw
document type `δ` is abstract. No assignment to published state happens in
this prefix, so a throw anywhere in it reaches the `catch` block with the
state untouched. -/
def loadPipeline {δ : Type} (source : SwaggerSource)
    (fetched readRes : Except Str δ) (fixDup fixHost : δ → δ)
    (validate deref : δ → Except Str δ) (parse : δ → ParsedDoc) :
    Except Str ParsedDoc :=
  match swaggerDocSource source fetched readRes with
  | Except.error e => Except.error e
  | Except.ok document =>
    match validate (fixHost (fixDup document)) with
    | Except.error e => Except.error e
    | Except.ok validated =>
      match deref validated with
      | Except.error e => Except.error e
      | Except.ok dereferenced => Except.ok (parse dereferenced)

/-- One run of `loadSwaggerDocument` as a transformer of the published
state. The result pairs the state after the run with its outcome:
`Except.error` when the `catch` block logs and rethrows. On success the
parsed document (with `appConfig.api.baseUrl` overriding its base URL
when configured) is assigned to `this.swaggerDoc`, the API proxy is
rebuilt on the final base URL, and `generateTools` clears and rebuilds
the tools map from the document's operations. -/
def loadSwaggerDocument {δ : Type} (source : SwaggerSource)
    (fetched readRes : Except Str δ) (fixDup fixHost : δ → δ)
    (validate deref : δ → Except Str δ) (parse : δ → ParsedDoc)
    (apiBaseUrl : Option Str) (st : ServerState) :
    ServerState × Except Str Unit :=
  match loadPipeline source fetched readRes fixDup fixHost validate deref parse with
  | Except.error e => (st, Except.error e)
  | Except.ok parsed0 =>
    let parsed :=
      (match apiBaseUrl with
       | some u => { parsed0 with baseUrl := u }
       | none => parsed0)
    let newTools := generateToolsMap (parsed.operations.map (generateToolName []))
    ({ st with swaggerDoc := some parsed, apiProxy := some parsed.baseUrl, tools := newTools },
     Except.ok ())

/-- C9: a reload that throws while acquiring, validating, or dereferencing
the document rethrows out of the `catch` block without touching the
published state: the tool registry, the parsed document with its
operations and base URL, and the API proxy of the previous successful load
are left fully intact — no tool is removed, replaced, or modified. -/
theorem C9_reload_failure_isolation {δ : Type} (source : SwaggerSource)
    (fetched readRes : Except Str δ) (fixDup fixHost : δ → δ)
    (validate deref : δ → Except Str δ) (parse : δ → ParsedDoc)
    (apiBaseUrl : Option Str) (st : ServerState) (e : Str)
    (h : (loadSwaggerDocument source fetched readRes fixDup fixHost validate
      deref parse apiBaseUrl st).2 = Except.error e) :
    (loadSwaggerDocument source fetched readRes fixDup fixHost validate
      deref parse apiBaseUrl st).1 = st := by
  unfold loadSwaggerDocument at h ⊢
  rcases hpl : loadPipeline source fetched readRes fixDup fixHost validate deref parse
    with e1 | parsed0
  · rfl
  · rw [hpl] at h
    simp at h

/-- The published state after a successful first load: one tool, a parsed
document, a proxy. -/
def c9State : ServerState :=
  ⟨[(("get-users".toList), 0)],
   some ⟨("Pets".toList), ("1.0".toList), ("http://api.example".toList),
     [⟨("listPets".toList), ("GET".toList), ("/users".toList)⟩], []⟩,
   some ("http://api.example".toList)⟩

/-- A reload whose fetch rejects reports the fetch error and leaves the
previously published state byte-for-byte intact. -/
theorem C9_witness :
    (loadSwaggerDocument (δ := Unit) SwaggerSource.url
      (Except.error ("getaddrinfo ENOTFOUND".toList)) (Except.error [])
      id id Except.ok Except.ok
      (fun _ => ⟨[], [], [], [], []⟩) none c9State).2 =
        Except.error ("getaddrinfo ENOTFOUND".toList) ∧
    (loadSwaggerDocument (δ := Unit) SwaggerSource.url
      (Except.error ("getaddrinfo ENOTFOUND".toList)) (Except.error [])
      id id Except.ok Except.ok
      (fun _ => ⟨[], [], [], [], []⟩) none c9State).1 = c9State :=
  ⟨rfl, C9_reload_failure_isolation SwaggerSource.url
    (Except.error ("getaddrinfo ENOTFOUND".toList)) (Except.error [])
    id id Except.ok Except.ok
    (fun _ => ⟨[], [], [], [], []⟩) none c9State
    ("getaddrinfo ENOTFOUND".toList) rfl⟩
